import Mathlib

/-!
Verification of the incremental RAG-indexing pipeline.

Text is modelled as `List Char` and file bytes as `List Nat`.  The functions
below are shallow embeddings of the Python sources:

* `data_cleaning.py`   — `clean_text`, `normalize_text`, `remove_references`;
  each `re.sub` pass of `clean_text` is embedded as a direct left-to-right
  scanner with the exact leftmost / greedy / non-rescanning semantics of
  `re.sub` for that particular pattern.
* `ollama_rag_creation_updation.py` — `get_file_hash` (a full MD5
  implementation over byte lists), `load_existing_metadata`, `get_new_pdfs`,
  `process_pdfs`, `update_rag`.  External collaborators (PDF extraction,
  text splitter, embedding + Chroma store, uuid generation, the filesystem)
  are parameters, mirroring the call boundaries of the source.

Scanners that advance by more than one character per step take an explicit
fuel argument (instantiated with the text length at the top level) so that
every definition is structurally recursive and evaluates by kernel
reduction.

Character classes are the ASCII parts of the regex classes `\s`, `\d`, `\w`
used by the source patterns.
-/

namespace RagSpec

/-- ASCII whitespace, the characters matched by the regex class used in
`clean_text`'s patterns. -/
def isSpaceChar (c : Char) : Bool :=
  c = ' ' || c = '\t' || c = '\n' || c = '\r' || c = '\x0b' || c = '\x0c'

/-- Decimal digits, the regex class of the page-number and digit-line
patterns in `clean_text`. -/
def isDigitChar (c : Char) : Bool :=
  '0' ≤ c && c ≤ '9'

/-- Word characters for the regex word boundary: letters, digits and
underscore. -/
def isWordChar (c : Char) : Bool :=
  ('a' ≤ c && c ≤ 'z') || ('A' ≤ c && c ≤ 'Z') || isDigitChar c || c = '_'

/-- A word boundary holds before the current position when there is no
previous character or the previous character is not a word character
(the next character of every pattern using the boundary is a word
character, so only the left side varies). -/
def wordBoundary : Option Char → Bool
  | none => true
  | some c => !isWordChar c

/-- Pass 1 of `clean_text`: the substitution replacing every maximal run of
newlines by a single newline.  The Boolean state records whether the
previously scanned character was a newline (i.e. whether we are inside a
run that already emitted its replacement). -/
def collapseNLAux (prevNL : Bool) : List Char → List Char
  | [] => []
  | c :: rest =>
    if c = '\n' then
      (if prevNL then [] else ['\n']) ++ collapseNLAux true rest
    else
      c :: collapseNLAux false rest

/-- Pass 1 of `clean_text` on a whole text. -/
def collapseNewlines (l : List Char) : List Char :=
  collapseNLAux false l

/-- Attempt to match, at the current position, the tail of the pattern
`Page\s*\d+\b` of pass 2 (case-insensitive `Page`, then greedy whitespace,
then at least one digit, then a word boundary).  Greedy backtracking never
helps for this pattern: a shorter whitespace run leaves a whitespace
character where a digit is required, and a shorter digit run leaves a digit
— a word character — after the match, so the maximal runs are the only
candidates.  Returns the last consumed character (the final digit, used as
the look-behind context for the continued scan) and the remainder of the
text after the match. -/
def pageMatchTail (l : List Char) : Option (Char × List Char) :=
  match l with
  | p :: a :: g :: e :: rest =>
    if p.toLower = 'p' ∧ a.toLower = 'a' ∧ g.toLower = 'g' ∧ e.toLower = 'e' then
      let afterWs := rest.dropWhile (fun c => isSpaceChar c)
      let digits := afterWs.takeWhile (fun c => isDigitChar c)
      let afterDigits := afterWs.dropWhile (fun c => isDigitChar c)
      if digits = [] then none
      else
        match afterDigits with
        | [] => some (digits.getLastD '0', [])
        | t :: ts => if isWordChar t then none else some (digits.getLastD '0', t :: ts)
    else none
  | _ => none

theorem pageMatchTail_length {l : List Char} {d : Char} {t : List Char}
    (h : pageMatchTail l = some (d, t)) : t.length < l.length := by
  match l with
  | [] => simp [pageMatchTail] at h
  | [_] => simp [pageMatchTail] at h
  | [_, _] => simp [pageMatchTail] at h
  | [_, _, _] => simp [pageMatchTail] at h
  | p :: a :: g :: e :: rest =>
    simp only [pageMatchTail] at h
    have hws : (rest.dropWhile (fun c => isSpaceChar c)).length ≤ rest.length :=
      (List.dropWhile_sublist _).length_le
    have hdd : ((rest.dropWhile (fun c => isSpaceChar c)).dropWhile
        (fun c => isDigitChar c)).length ≤ (rest.dropWhile (fun c => isSpaceChar c)).length :=
      (List.dropWhile_sublist _).length_le
    split at h
    · split at h
      · exact absurd h (by simp)
      · split at h
        · rename_i heq
          simp only [Option.some.injEq, Prod.mk.injEq] at h
          have ht : t = [] := h.2.symm
          subst ht
          simp only [List.length_nil, List.length_cons]
          omega
        · rename_i c cs heq
          split at h
          · exact absurd h (by simp)
          · simp only [Option.some.injEq, Prod.mk.injEq] at h
            have ht : t = c :: cs := h.2.symm
            subst ht
            rw [heq] at hdd
            simp only [List.length_cons] at hdd ⊢
            omega
    · exact absurd h (by simp)

/-- Pass 2 of `clean_text`: `re.sub(r'\bPage\s*\d+\b', '', text, flags=IGNORECASE)`.
The scanner carries the previous character of the original text as
look-behind context; after a removed match the scan resumes right after
the match (`re.sub` does not rescan the joined text).  The fuel argument
makes the recursion structural; it is instantiated with the text length,
which suffices since every step consumes at least one character. -/
def subPageAux : Nat → Option Char → List Char → List Char
  | _, _, [] => []
  | 0, _, l => l
  | fuel + 1, prev, c :: rest =>
    if wordBoundary prev then
      match pageMatchTail (c :: rest) with
      | some (d, t) => subPageAux fuel (some d) t
      | none => c :: subPageAux fuel (some c) rest
    else c :: subPageAux fuel (some c) rest

/-- Pass 2 of `clean_text` on a whole text. -/
def subPage (l : List Char) : List Char :=
  subPageAux l.length none l

/-- Test that a character is not a newline (named so that the predicate is
syntactically stable across statements). -/
def isNotNL (c : Char) : Bool := c ≠ '\n'

theorem isNotNL_eq_false {c : Char} (h : isNotNL c = false) : c = '\n' := by
  simpa [isNotNL] using h

theorem eq_nl_of_not_isNotNL {c : Char} (h : ¬isNotNL c = true) : c = '\n' := by
  simp only [Bool.not_eq_true] at h
  exact isNotNL_eq_false h

/-- Suffix of a whitespace run after its last newline (used to compute the
backtracked extent of a pass-3 match whose trailing `\s*` cannot reach a
line end). -/
def afterLastNewline (w : List Char) : List Char :=
  (w.reverse.takeWhile isNotNL).reverse

theorem length_takeWhile_lt_of_mem {p : Char → Bool} {w : List Char} {a : Char}
    (ha : a ∈ w) (hpa : p a = false) : (w.takeWhile p).length < w.length := by
  induction w with
  | nil => cases ha
  | cons c cs ih =>
    by_cases hc : p c = true
    · simp only [List.takeWhile_cons, hc, if_true, List.length_cons]
      have hmem : a ∈ cs := by
        rcases List.mem_cons.mp ha with h | h
        · subst h; rw [hpa] at hc; cases hc
        · exact h
      have := ih hmem
      omega
    · simp only [Bool.not_eq_true] at hc
      simp [List.takeWhile_cons, hc]

theorem afterLastNewline_length_lt {w : List Char} (h : '\n' ∈ w) :
    (afterLastNewline w).length < w.length := by
  unfold afterLastNewline
  rw [List.length_reverse, ← List.length_reverse w]
  exact length_takeWhile_lt_of_mem (List.mem_reverse.mpr h) (by simp [isNotNL])

/-- Attempt to match `^\s*\d+\s*$` (MULTILINE) of pass 3 at a line start.
Both `\s*` are greedy and may span newlines; backtracking the leading
`\s*` or the `\d+` never succeeds, and backtracking the trailing `\s*`
succeeds exactly at the last newline inside it (or not at all).  Hence:
`none` when there is no digit after the leading whitespace run, or when
the text after the trailing whitespace run is nonempty and that run has
no newline; `some []` when the match extends to the end of the text;
`some ('\n' :: _)` when the match ends just before the last newline of
the trailing whitespace run, returning the remainder starting at that
newline (where the scan resumes). -/
def digitLineMatch (l : List Char) : Option (List Char) :=
  let l1 := l.dropWhile (fun c => isSpaceChar c)
  let d := l1.takeWhile (fun c => isDigitChar c)
  if d = [] then none
  else
    let l2 := l1.dropWhile (fun c => isDigitChar c)
    let w2 := l2.takeWhile (fun c => isSpaceChar c)
    let rest := l2.dropWhile (fun c => isSpaceChar c)
    if rest = [] then some []
    else if '\n' ∈ w2 then some ('\n' :: (afterLastNewline w2 ++ rest))
    else none

theorem digitLineMatch_length {l res : List Char}
    (h : digitLineMatch l = some res) : res.length < l.length := by
  simp only [digitLineMatch] at h
  have hl1 : (l.dropWhile (fun c => isSpaceChar c)).length ≤ l.length :=
    (List.dropWhile_sublist _).length_le
  have hdecomp := congrArg List.length (List.takeWhile_append_dropWhile
    (p := fun c => isDigitChar c) (l := l.dropWhile (fun c => isSpaceChar c)))
  simp only [List.length_append] at hdecomp
  have hw2 := congrArg List.length (List.takeWhile_append_dropWhile
    (p := fun c => isSpaceChar c)
    (l := (l.dropWhile (fun c => isSpaceChar c)).dropWhile (fun c => isDigitChar c)))
  simp only [List.length_append] at hw2
  split at h
  · exact absurd h (by simp)
  · rename_i hd
    have hdlen : 1 ≤ ((l.dropWhile (fun c => isSpaceChar c)).takeWhile
        (fun c => isDigitChar c)).length := by
      cases hdd : (l.dropWhile (fun c => isSpaceChar c)).takeWhile (fun c => isDigitChar c) with
      | nil => exact absurd hdd hd
      | cons x xs => simp [hdd]
    split at h
    · rename_i hrest
      simp only [Option.some.injEq] at h
      subst h
      simp only [List.length_nil]
      omega
    · split at h
      · rename_i hrest hnl
        simp only [Option.some.injEq] at h
        subst h
        have halnl := afterLastNewline_length_lt hnl
        simp only [List.length_cons, List.length_append]
        omega
      · exact absurd h (by simp)

/-- Pass 3 of `clean_text`: `re.sub(r'^\s*\d+\s*$', '', text, flags=re.MULTILINE)`.
The scanner works line-start by line-start: if the pattern matches at the
current line start the matched region is dropped and the scan resumes at
the newline just before which the match ends (or terminates when the match
reaches the end); otherwise everything up to and including the next newline
is copied (no match can start strictly inside a line).  The fuel argument
makes the recursion structural; the text length suffices since every step
consumes at least one character. -/
def subDLGo : Nat → List Char → List Char
  | 0, l => l
  | fuel + 1, l =>
    match digitLineMatch l with
    | some [] => []
    | some (c :: r) => c :: subDLGo fuel r
    | none =>
      match l.dropWhile isNotNL with
      | [] => l
      | _ :: rest => l.takeWhile isNotNL ++ '\n' :: subDLGo fuel rest

/-- Pass 3 of `clean_text` on a whole text (the start of the text is a line
start). -/
def subDigitLines (l : List Char) : List Char :=
  subDLGo l.length l

/-- Pass 4 of `clean_text`: `re.sub(r'(?<!\n)\n(?!\n)', ' ', text)`.  The
look-around assertions are zero-width and refer to the original text, so
the pass is a pointwise map replacing every newline whose neighbours are
not newlines by a space.  `prev` is the previous character of the original
text. -/
def subSingleNLAux (prev : Option Char) : List Char → List Char
  | [] => []
  | c :: rest =>
    (if c = '\n' ∧ prev ≠ some '\n' ∧ (∀ d ∈ rest.head?, d ≠ '\n')
      then ' ' else c) :: subSingleNLAux (some c) rest

/-- Pass 4 of `clean_text` on a whole text. -/
def subSingleNewlines (l : List Char) : List Char :=
  subSingleNLAux none l

/-- Pass 5 of `clean_text`: the substitution replacing every maximal
whitespace run by a single space.  The Boolean state records whether the
previous character was whitespace (the run already emitted its
replacement). -/
def collapseWSAux (inWS : Bool) : List Char → List Char
  | [] => []
  | c :: rest =>
    if isSpaceChar c then
      (if inWS then [] else [' ']) ++ collapseWSAux true rest
    else
      c :: collapseWSAux false rest

/-- Pass 5 of `clean_text` on a whole text. -/
def collapseWhitespace (l : List Char) : List Char :=
  collapseWSAux false l

/-- Final step of `clean_text`: Python `str.strip()`, removing leading and
trailing whitespace. -/
def pyStrip (l : List Char) : List Char :=
  ((l.dropWhile (fun c => isSpaceChar c)).reverse.dropWhile
    (fun c => isSpaceChar c)).reverse

/-- Embedding of `clean_text` from `data_cleaning.py`: the five `re.sub`
passes followed by `strip()`. -/
def clean_text (t : List Char) : List Char :=
  pyStrip (collapseWhitespace (subSingleNewlines (subDigitLines
    (subPage (collapseNewlines t)))))

/-- Python `str.replace` for a single-character pattern: every occurrence
of `pat` is replaced by `rep` (single-character occurrences cannot
overlap, so `str.replace` is exactly this character-wise expansion). -/
def replaceChar (pat : Char) (rep : List Char) (l : List Char) : List Char :=
  l.flatMap (fun c => if c = pat then rep else [c])

/-- Embedding of `normalize_text` from `data_cleaning.py`: the five
`str.replace` calls in source order (ligatures fi and fl, curly double
quotes, curly apostrophe). -/
def normalize_text (t : List Char) : List Char :=
  replaceChar '’' ['\'']
    (replaceChar '”' ['"']
      (replaceChar '“' ['"']
        (replaceChar 'ﬂ' ['f', 'l']
          (replaceChar 'ﬁ' ['f', 'i'] t))))

/-- Case-insensitive literal token match at the current position followed
by a word boundary: the lowered text starts with `tok` and the character
after the token (if any) is not a word character.  `tok` must be given in
lower case. -/
def tokenHere (tok : List Char) (l : List Char) : Bool :=
  ((l.take tok.length).map Char.toLower = tok) &&
    (match l.drop tok.length with
     | [] => true
     | c :: _ => !isWordChar c)

/-- Either alternative of the pattern `\bReferences\b|\bBibliography\b`
matches at the current position (the leading boundary is checked by the
caller). -/
def refTokenHere (l : List Char) : Bool :=
  tokenHere ['r', 'e', 'f', 'e', 'r', 'e', 'n', 'c', 'e', 's'] l ||
    tokenHere ['b', 'i', 'b', 'l', 'i', 'o', 'g', 'r', 'a', 'p', 'h', 'y'] l

/-- Scanner for `remove_references`: `re.split` cuts at the leftmost match
of the pattern and `parts[0]` is everything before it, so the embedding
copies characters until the first whole-word occurrence of either token
and drops the rest. -/
def removeReferencesAux (prev : Option Char) : List Char → List Char
  | [] => []
  | c :: rest =>
    if wordBoundary prev && refTokenHere (c :: rest) then []
    else c :: removeReferencesAux (some c) rest

/-- Embedding of `remove_references` from `data_cleaning.py`:
`re.split(r'\bReferences\b|\bBibliography\b', text, flags=IGNORECASE)[0]`.
(`re.split` always returns a nonempty list, so the `if parts else text`
fallback in the source is dead code.) -/
def remove_references (t : List Char) : List Char :=
  removeReferencesAux none t

/-! ### Basic facts about `replaceChar`, used for normalization idempotence -/

theorem mem_replaceChar {pat : Char} {rep l : List Char} {x : Char}
    (hx : x ∈ replaceChar pat rep l) : x ∈ rep ∨ (x ∈ l ∧ x ≠ pat) := by
  unfold replaceChar at hx
  simp only [List.mem_flatMap] at hx
  obtain ⟨c, hc, hx⟩ := hx
  by_cases h : c = pat
  · rw [if_pos h] at hx
    exact Or.inl hx
  · rw [if_neg h] at hx
    simp only [List.mem_singleton] at hx
    subst hx
    exact Or.inr ⟨hc, h⟩

theorem replaceChar_eq_self {pat : Char} {rep l : List Char}
    (h : pat ∉ l) : replaceChar pat rep l = l := by
  induction l with
  | nil => rfl
  | cons c cs ih =>
    simp only [List.mem_cons, not_or] at h
    unfold replaceChar at ih ⊢
    simp only [List.flatMap_cons]
    rw [if_neg (fun hc => h.1 hc.symm), ih h.2]
    rfl

theorem not_mem_normalize_fi (t : List Char) : 'ﬁ' ∉ normalize_text t := by
  intro hmem
  unfold normalize_text at hmem
  rcases mem_replaceChar hmem with h | ⟨hmem, -⟩
  · simp at h
  rcases mem_replaceChar hmem with h | ⟨hmem, -⟩
  · simp at h
  rcases mem_replaceChar hmem with h | ⟨hmem, -⟩
  · simp at h
  rcases mem_replaceChar hmem with h | ⟨hmem, -⟩
  · simp at h
  rcases mem_replaceChar hmem with h | ⟨-, hne⟩
  · simp at h
  · exact hne rfl

theorem not_mem_normalize_fl (t : List Char) : 'ﬂ' ∉ normalize_text t := by
  intro hmem
  unfold normalize_text at hmem
  rcases mem_replaceChar hmem with h | ⟨hmem, -⟩
  · simp at h
  rcases mem_replaceChar hmem with h | ⟨hmem, -⟩
  · simp at h
  rcases mem_replaceChar hmem with h | ⟨hmem, -⟩
  · simp at h
  rcases mem_replaceChar hmem with h | ⟨-, hne⟩
  · simp at h
  rcases mem_replaceChar hmem with h | ⟨-, -⟩
  · simp at h
  · exact hne rfl

theorem not_mem_normalize_lq (t : List Char) : '“' ∉ normalize_text t := by
  intro hmem
  unfold normalize_text at hmem
  rcases mem_replaceChar hmem with h | ⟨hmem, -⟩
  · simp at h
  rcases mem_replaceChar hmem with h | ⟨hmem, -⟩
  · simp at h
  rcases mem_replaceChar hmem with h | ⟨-, hne⟩
  · simp at h
  rcases mem_replaceChar hmem with h | ⟨-, -⟩
  · simp at h
  rcases mem_replaceChar hmem with h | ⟨-, -⟩
  · simp at h
  · exact hne rfl

theorem not_mem_normalize_rq (t : List Char) : '”' ∉ normalize_text t := by
  intro hmem
  unfold normalize_text at hmem
  rcases mem_replaceChar hmem with h | ⟨hmem, -⟩
  · simp at h
  rcases mem_replaceChar hmem with h | ⟨-, hne⟩
  · simp at h
  rcases mem_replaceChar hmem with h | ⟨-, -⟩
  · simp at h
  rcases mem_replaceChar hmem with h | ⟨-, -⟩
  · simp at h
  rcases mem_replaceChar hmem with h | ⟨-, -⟩
  · simp at h
  · exact hne rfl

theorem not_mem_normalize_apos (t : List Char) : '’' ∉ normalize_text t := by
  intro hmem
  unfold normalize_text at hmem
  rcases mem_replaceChar hmem with h | ⟨-, hne⟩
  · simp at h
  rcases mem_replaceChar hmem with h | ⟨-, -⟩
  · simp at h
  rcases mem_replaceChar hmem with h | ⟨-, -⟩
  · simp at h
  rcases mem_replaceChar hmem with h | ⟨-, -⟩
  · simp at h
  rcases mem_replaceChar hmem with h | ⟨-, -⟩
  · simp at h
  · exact hne rfl

theorem normalize_text_eq_self {l : List Char}
    (h1 : 'ﬁ' ∉ l) (h2 : 'ﬂ' ∉ l) (h3 : '“' ∉ l) (h4 : '”' ∉ l)
    (h5 : '’' ∉ l) : normalize_text l = l := by
  unfold normalize_text
  rw [replaceChar_eq_self h1, replaceChar_eq_self h2, replaceChar_eq_self h3,
    replaceChar_eq_self h4, replaceChar_eq_self h5]

/-! ### Facts about whitespace collapsing and stripping -/

theorem collapseWSAux_ws_mem {l : List Char} {b : Bool} {c : Char}
    (hc : c ∈ collapseWSAux b l) (hws : isSpaceChar c = true) : c = ' ' := by
  induction l generalizing b with
  | nil => cases hc
  | cons d rest ih =>
    by_cases hd : isSpaceChar d = true
    · simp only [collapseWSAux, hd, if_true, List.mem_append] at hc
      rcases hc with hc | hc
      · cases b with
        | true => cases hc
        | false => simpa using hc
      · exact ih hc
    · simp only [Bool.not_eq_true] at hd
      simp only [collapseWSAux, hd, Bool.false_eq_true, if_false, List.mem_cons] at hc
      rcases hc with hc | hc
      · subst hc; rw [hd] at hws; cases hws
      · exact ih hc

theorem mem_pyStrip {l : List Char} {c : Char} (h : c ∈ pyStrip l) : c ∈ l := by
  unfold pyStrip at h
  rw [List.mem_reverse] at h
  have h2 := (List.dropWhile_sublist (l := (l.dropWhile
    (fun c => isSpaceChar c)).reverse) (fun c => isSpaceChar c)).mem h
  rw [List.mem_reverse] at h2
  exact (List.dropWhile_sublist (l := l) (fun c => isSpaceChar c)).mem h2

/-! ### First whole-word occurrence of References or Bibliography -/

/-- A whole-word occurrence of the token `References` or `Bibliography`
(case-insensitive) begins at position `i` of `t`: position `i` is preceded
by the start of the text or a non-word character, and the token followed
by a word boundary starts there. -/
def wholeWordRefAt (t : List Char) : Nat → Bool
  | 0 => refTokenHere t
  | i + 1 => !isWordChar (t.getD i ' ') && refTokenHere (t.drop (i + 1))

/-- Position of the first (leftmost) whole-word occurrence of either token
in `t`, if any — the position at which `re.split` cuts. -/
def firstRefOccurrence (t : List Char) : Option Nat :=
  (List.range t.length).find? (fun i => wholeWordRefAt t i)

/-- Recursive companion of `firstRefOccurrence` threading the look-behind
character, mirroring the scanner. -/
def firstRefAux (prev : Option Char) : List Char → Option Nat
  | [] => none
  | c :: rest =>
    if wordBoundary prev && refTokenHere (c :: rest) then some 0
    else (firstRefAux (some c) rest).map (· + 1)

/-- Position-indexed occurrence test relative to a look-behind character
for the head position. -/
def wwPrev (prev : Option Char) (l : List Char) : Nat → Bool
  | 0 => wordBoundary prev && refTokenHere l
  | i + 1 => !isWordChar (l.getD i ' ') && refTokenHere (l.drop (i + 1))

theorem find?_congr {α : Type} {p q : α → Bool} {l : List α}
    (h : ∀ a ∈ l, p a = q a) : l.find? p = l.find? q := by
  induction l with
  | nil => rfl
  | cons c cs ih =>
    rw [List.find?_cons, List.find?_cons, h c (List.mem_cons_self c cs)]
    cases q c
    · exact ih fun a ha => h a (List.mem_cons_of_mem c ha)
    · rfl

theorem firstRefAux_eq_find? (l : List Char) :
    ∀ prev, firstRefAux prev l = (List.range l.length).find? (wwPrev prev l) := by
  induction l with
  | nil => intro prev; rfl
  | cons c rest ih =>
    intro prev
    rw [List.length_cons, List.range_succ_eq_map, List.find?_cons]
    have h0 : wwPrev prev (c :: rest) 0 = (wordBoundary prev && refTokenHere (c :: rest)) := rfl
    cases hcond : wordBoundary prev && refTokenHere (c :: rest) with
    | true =>
      simp only [firstRefAux, hcond, if_true]
      rw [h0, hcond]
    | false =>
      simp only [firstRefAux, hcond, Bool.false_eq_true, if_false]
      rw [h0, hcond]
      have hmap : List.find? (wwPrev prev (c :: rest)) (List.map Nat.succ (List.range rest.length)) =
          Option.map Nat.succ (List.find? (wwPrev prev (c :: rest) ∘ Nat.succ) (List.range rest.length)) :=
        List.find?_map _ _
      rw [hmap, ih (some c)]
      have hcong : List.find? (wwPrev (some c) rest) (List.range rest.length) =
          List.find? (wwPrev prev (c :: rest) ∘ Nat.succ) (List.range rest.length) := by
        apply find?_congr
        intro i _
        cases i with
        | zero => rfl
        | succ j => rfl
      rw [hcong]

theorem wwPrev_none_eq (t : List Char) (i : Nat) : wwPrev none t i = wholeWordRefAt t i := by
  cases i with
  | zero =>
    show (wordBoundary none && refTokenHere t) = refTokenHere t
    rw [show wordBoundary none = true from rfl, Bool.true_and]
  | succ j => rfl

theorem firstRefAux_none_eq (t : List Char) : firstRefAux none t = firstRefOccurrence t := by
  rw [firstRefAux_eq_find? t none, firstRefOccurrence]
  exact find?_congr fun i _ => wwPrev_none_eq t i

theorem removeReferencesAux_eq (l : List Char) :
    ∀ prev, removeReferencesAux prev l =
      match firstRefAux prev l with
      | none => l
      | some i => l.take i := by
  induction l with
  | nil => intro prev; rfl
  | cons c rest ih =>
    intro prev
    cases hcond : wordBoundary prev && refTokenHere (c :: rest) with
    | true => simp [removeReferencesAux, firstRefAux, hcond]
    | false =>
      simp only [removeReferencesAux, firstRefAux, hcond, Bool.false_eq_true, if_false]
      rw [ih (some c)]
      cases hfa : firstRefAux (some c) rest with
      | none => rfl
      | some i => rfl

/-! ### Whole-word occurrences of the page-number pattern -/

/-- A whole-word occurrence of the page-number pattern `Page\s*\d+\b`
(case-insensitive) begins at position `i` of `t`: the position is preceded
by the start of the text or a non-word character, and the pattern matches
there. -/
def pagePatternAt (t : List Char) : Nat → Bool
  | 0 => (pageMatchTail t).isSome
  | i + 1 => !isWordChar (t.getD i ' ') && (pageMatchTail (t.drop (i + 1))).isSome

/-- Whether `t` contains a whole-word occurrence of the page-number
pattern anywhere. -/
def hasPagePattern (t : List Char) : Bool :=
  (List.range t.length).any (fun i => pagePatternAt t i)

/-- Claim C5: `remove_references` returns exactly the prefix of the text
preceding the first case-insensitive whole-word occurrence of the literal
token References or Bibliography; it returns the text unchanged when
neither token occurs as a whole word; and on the spec's example input
containing a References line it returns exactly the pre-token content. -/
theorem claim_C5 :
    (∀ t : List Char, remove_references t =
      match firstRefOccurrence t with
      | none => t
      | some i => t.take i) ∧
    (∀ t : List Char, (∀ i, i < t.length → wholeWordRefAt t i = false) →
      remove_references t = t) ∧
    remove_references "...body text...\nReferences\n[1] foo".toList =
      "...body text...\n".toList := by
  have hmain : ∀ t : List Char, remove_references t =
      match firstRefOccurrence t with
      | none => t
      | some i => t.take i := by
    intro t
    rw [remove_references, removeReferencesAux_eq t none, firstRefAux_none_eq]
  refine ⟨hmain, ?_, by decide⟩
  intro t h
  rw [hmain t]
  have hnone : firstRefOccurrence t = none := by
    rw [firstRefOccurrence, List.find?_eq_none]
    intro i hi
    rw [h i (List.mem_range.mp hi)]
    simp
  rw [hnone]

/-- Witness for C5: a concrete text with no occurrence of either token is
returned unchanged. -/
theorem claim_C5_witness :
    remove_references "no refs here".toList = "no refs here".toList :=
  claim_C5.2.1 _ (by decide)

/-- Claim C7: `normalize_text` is idempotent. -/
theorem claim_C7 (t : List Char) :
    normalize_text (normalize_text t) = normalize_text t :=
  normalize_text_eq_self (not_mem_normalize_fi t) (not_mem_normalize_fl t)
    (not_mem_normalize_lq t) (not_mem_normalize_rq t) (not_mem_normalize_apos t)

/-- Claim C10: the output of `clean_text` never contains a newline
character — the final whitespace-collapsing pass replaces every whitespace
run (including any surviving paragraph break) by a single space, so the
downstream chunker never sees a paragraph boundary. -/
theorem claim_C10 (t : List Char) : '\n' ∉ clean_text t := by
  intro hmem
  unfold clean_text at hmem
  have h1 := mem_pyStrip hmem
  unfold collapseWhitespace at h1
  have h2 := collapseWSAux_ws_mem h1 (by decide)
  exact absurd h2 (by decide)

/-! ### Tokens separated by whitespace

`numTokAux` counts the maximal non-whitespace runs of a text; the Boolean
state records whether the previous character was part of such a run.  The
passes that only rewrite whitespace (4, 5 and the final strip) preserve
this count, which drives the digit-only-line analysis of `clean_text`. -/

def numTokAux (inTok : Bool) : List Char → Nat
  | [] => 0
  | c :: rest =>
    if isSpaceChar c then numTokAux false rest
    else (if inTok then 0 else 1) + numTokAux true rest

/-- Number of maximal non-whitespace runs of a text. -/
def numTokens (l : List Char) : Nat := numTokAux false l

/-- State of the token scanner after reading a text. -/
def tokState (b : Bool) : List Char → Bool
  | [] => b
  | c :: rest => tokState (!isSpaceChar c) rest

theorem numTokAux_cons_ws {c : Char} (hc : isSpaceChar c = true) (rest : List Char)
    (b : Bool) : numTokAux b (c :: rest) = numTokAux false rest := by
  simp [numTokAux, hc]

theorem numTokAux_cons_nonws {c : Char} (hc : isSpaceChar c = false) (rest : List Char)
    (b : Bool) : numTokAux b (c :: rest) =
      (if b = true then 0 else 1) + numTokAux true rest := by
  simp [numTokAux, hc]

theorem tokState_cons (b : Bool) (c : Char) (rest : List Char) :
    tokState b (c :: rest) = tokState (!isSpaceChar c) rest := rfl

theorem tokState_append (x : List Char) :
    ∀ y b, tokState b (x ++ y) = tokState (tokState b x) y := by
  induction x with
  | nil => intro y b; rfl
  | cons c cs ih =>
    intro y b
    rw [List.cons_append, tokState_cons, tokState_cons, ih]

theorem numTokAux_append (x : List Char) :
    ∀ y b, numTokAux b (x ++ y) = numTokAux b x + numTokAux (tokState b x) y := by
  induction x with
  | nil => intro y b; simp [numTokAux, tokState]
  | cons c cs ih =>
    intro y b
    rw [List.cons_append]
    by_cases hc : isSpaceChar c = true
    · rw [numTokAux_cons_ws hc, numTokAux_cons_ws hc, tokState_cons, hc, Bool.not_true, ih]
    · simp only [Bool.not_eq_true] at hc
      rw [numTokAux_cons_nonws hc, numTokAux_cons_nonws hc, tokState_cons, hc, Bool.not_false,
        ih y true, Nat.add_assoc]

theorem tokState_false_of_all_ws {w : List Char}
    (h : ∀ c ∈ w, isSpaceChar c = true) : ∀ b, b = false ∨ w ≠ [] → tokState b w = false := by
  induction w with
  | nil =>
    intro b hb
    rcases hb with hb | hb
    · exact hb
    · exact absurd rfl hb
  | cons c cs ih =>
    intro b _
    simp only [tokState, h c (List.mem_cons_self c cs), Bool.not_true]
    rcases Decidable.em (cs = []) with hcs | hcs
    · subst hcs; rfl
    · exact ih (fun x hx => h x (List.mem_cons_of_mem c hx)) false (Or.inr hcs)

theorem numTokAux_all_ws {w : List Char}
    (h : ∀ c ∈ w, isSpaceChar c = true) : ∀ b, numTokAux b w = 0 := by
  induction w with
  | nil => intro b; rfl
  | cons c cs ih =>
    intro b
    rw [numTokAux_cons_ws (h c (List.mem_cons_self c cs))]
    exact ih (fun x hx => h x (List.mem_cons_of_mem c hx)) false

theorem numTokAux_all_nonws {w : List Char}
    (h : ∀ c ∈ w, isSpaceChar c = false) : numTokAux true w = 0 := by
  induction w with
  | nil => rfl
  | cons c cs ih =>
    rw [numTokAux_cons_nonws (h c (List.mem_cons_self c cs)), if_pos rfl, Nat.zero_add]
    exact ih fun x hx => h x (List.mem_cons_of_mem c hx)

theorem numTokens_all_nonws {w : List Char} (hne : w ≠ [])
    (h : ∀ c ∈ w, isSpaceChar c = false) : numTokens w = 1 := by
  cases w with
  | nil => exact absurd rfl hne
  | cons c cs =>
    unfold numTokens
    rw [numTokAux_cons_nonws (h c (List.mem_cons_self c cs)),
      if_neg (by decide : ¬(false = true)),
      numTokAux_all_nonws fun x hx => h x (List.mem_cons_of_mem c hx)]

theorem numTokAux_one_all_nonws {w : List Char} (hne : w ≠ [])
    (h : ∀ c ∈ w, isSpaceChar c = false) : numTokAux false w = 1 :=
  numTokens_all_nonws hne h

theorem numTokAux_ws_append {w : List Char} (h : ∀ c ∈ w, isSpaceChar c = true)
    (x : List Char) : numTokAux false (w ++ x) = numTokAux false x := by
  rw [numTokAux_append, numTokAux_all_ws h, Nat.zero_add]
  rcases Decidable.em (w = []) with hw | hw
  · subst hw; rfl
  · rw [tokState_false_of_all_ws h false (Or.inr hw)]

theorem numTokAux_append_ws {w : List Char} (h : ∀ c ∈ w, isSpaceChar c = true)
    (x : List Char) (b : Bool) : numTokAux b (x ++ w) = numTokAux b x := by
  rw [numTokAux_append, numTokAux_all_ws h, Nat.add_zero]

/-! ### Pass 4 and pass 5 preserve the token count -/

theorem subSingleNLAux_numTok (l : List Char) :
    ∀ prev b, numTokAux b (subSingleNLAux prev l) = numTokAux b l := by
  induction l with
  | nil => intro prev b; rfl
  | cons c rest ih =>
    intro prev b
    by_cases hc : isSpaceChar c = true
    · have he : isSpaceChar (if c = '\n' ∧ prev ≠ some '\n' ∧ (∀ d ∈ rest.head?, d ≠ '\n')
          then ' ' else c) = true := by
        split
        · rfl
        · exact hc
      simp only [subSingleNLAux, numTokAux, hc, he, if_true]
      exact ih (some c) false
    · simp only [Bool.not_eq_true] at hc
      have hcond : ¬(c = '\n' ∧ prev ≠ some '\n' ∧ (∀ d ∈ rest.head?, d ≠ '\n')) := by
        rintro ⟨rfl, -, -⟩
        exact absurd hc (by decide)
      simp only [subSingleNLAux, if_neg hcond, numTokAux, hc, Bool.false_eq_true, if_false]
      rw [ih (some c) true]

theorem collapseWSAux_cons_ws_false {c : Char} (hc : isSpaceChar c = true)
    (rest : List Char) :
    collapseWSAux false (c :: rest) = ' ' :: collapseWSAux true rest := by
  simp [collapseWSAux, hc]

theorem collapseWSAux_cons_ws_true {c : Char} (hc : isSpaceChar c = true)
    (rest : List Char) :
    collapseWSAux true (c :: rest) = collapseWSAux true rest := by
  simp [collapseWSAux, hc]

theorem collapseWSAux_cons_nonws {c : Char} (hc : isSpaceChar c = false)
    (rest : List Char) (b : Bool) :
    collapseWSAux b (c :: rest) = c :: collapseWSAux false rest := by
  simp [collapseWSAux, hc]

theorem collapseWSAux_numTok (l : List Char) :
    (∀ b, numTokAux b (collapseWSAux false l) = numTokAux b l) ∧
      numTokAux false (collapseWSAux true l) = numTokAux false l := by
  induction l with
  | nil => exact ⟨fun b => rfl, rfl⟩
  | cons c rest ih =>
    by_cases hc : isSpaceChar c = true
    · constructor
      · intro b
        rw [collapseWSAux_cons_ws_false hc,
          numTokAux_cons_ws (show isSpaceChar ' ' = true from rfl),
          ih.2, numTokAux_cons_ws hc]
      · rw [collapseWSAux_cons_ws_true hc, ih.2, numTokAux_cons_ws hc]
    · simp only [Bool.not_eq_true] at hc
      constructor
      · intro b
        rw [collapseWSAux_cons_nonws hc, numTokAux_cons_nonws hc, ih.1 true,
          numTokAux_cons_nonws hc]
      · rw [collapseWSAux_cons_nonws hc, numTokAux_cons_nonws hc, ih.1 true,
          numTokAux_cons_nonws hc]

/-! ### Strip: decomposition and token count -/

theorem pyStrip_decomp (l : List Char) :
    ∃ v w, l = v ++ pyStrip l ++ w ∧ (∀ c ∈ v, isSpaceChar c = true) ∧
      ∀ c ∈ w, isSpaceChar c = true := by
  refine ⟨l.takeWhile (fun c => isSpaceChar c),
    (((l.dropWhile (fun c => isSpaceChar c)).reverse.takeWhile
      (fun c => isSpaceChar c)).reverse), ?_, ?_, ?_⟩
  · unfold pyStrip
    have h1 : l = l.takeWhile (fun c => isSpaceChar c) ++ l.dropWhile (fun c => isSpaceChar c) :=
      (List.takeWhile_append_dropWhile ..).symm
    have h2 : (l.dropWhile (fun c => isSpaceChar c)).reverse =
        (l.dropWhile (fun c => isSpaceChar c)).reverse.takeWhile (fun c => isSpaceChar c) ++
          (l.dropWhile (fun c => isSpaceChar c)).reverse.dropWhile (fun c => isSpaceChar c) :=
      (List.takeWhile_append_dropWhile ..).symm
    have h3 : l.dropWhile (fun c => isSpaceChar c) =
        ((l.dropWhile (fun c => isSpaceChar c)).reverse.dropWhile
          (fun c => isSpaceChar c)).reverse ++
          ((l.dropWhile (fun c => isSpaceChar c)).reverse.takeWhile
            (fun c => isSpaceChar c)).reverse := by
      conv_lhs => rw [← List.reverse_reverse (l.dropWhile (fun c => isSpaceChar c)), h2]
      rw [List.reverse_append]
    conv_lhs => rw [h1, h3]
    rw [List.append_assoc]
  · intro c hc
    exact List.mem_takeWhile_imp hc
  · intro c hc
    rw [List.mem_reverse] at hc
    exact List.mem_takeWhile_imp hc

theorem pyStrip_numTok (l : List Char) : numTokens (pyStrip l) = numTokens l := by
  obtain ⟨v, w, hdec, hv, hw⟩ := pyStrip_decomp l
  conv_rhs => rw [hdec]
  unfold numTokens
  rw [numTokAux_append_ws hw, numTokAux_ws_append hv]

/-! ### Generic helper lemmas on takeWhile, dropWhile and filter -/

theorem head_dropWhile_false {α : Type} {p : α → Bool} :
    ∀ {l : List α} {x : α} {xs : List α}, l.dropWhile p = x :: xs → p x = false := by
  intro l
  induction l with
  | nil => intro x xs h; cases h
  | cons c cs ih =>
    intro x xs h
    by_cases hc : p c = true
    · rw [List.dropWhile_cons_of_pos hc] at h
      exact ih h
    · simp only [Bool.not_eq_true] at hc
      rw [List.dropWhile_cons_of_neg (by simp [hc])] at h
      cases h
      exact hc

theorem all_of_dropWhile_nil {α : Type} {p : α → Bool} {l : List α}
    (h : l.dropWhile p = []) : ∀ c ∈ l, p c = true := by
  induction l with
  | nil => intro c hc; cases hc
  | cons c cs ih =>
    intro x hx
    by_cases hc : p c = true
    · rw [List.dropWhile_cons_of_pos hc] at h
      rcases List.mem_cons.mp hx with rfl | hx
      · exact hc
      · exact ih h x hx
    · simp only [Bool.not_eq_true] at hc
      rw [List.dropWhile_cons_of_neg (by simp [hc])] at h
      cases h

theorem takeWhile_append_all {α : Type} {p : α → Bool} {x : List α}
    (h : ∀ a ∈ x, p a = true) (y : List α) :
    (x ++ y).takeWhile p = x ++ y.takeWhile p := by
  induction x with
  | nil => rfl
  | cons c cs ih =>
    rw [List.cons_append, List.takeWhile_cons_of_pos (h c (List.mem_cons_self c cs)),
      ih fun a ha => h a (List.mem_cons_of_mem c ha), List.cons_append]

theorem takeWhile_append_stop {α : Type} {p : α → Bool} {x : List α} {a : α}
    (ha : a ∈ x) (hpa : p a = false) (y : List α) :
    (x ++ y).takeWhile p = x.takeWhile p := by
  induction x with
  | nil => cases ha
  | cons c cs ih =>
    by_cases hc : p c = true
    · have hacs : a ∈ cs := by
        rcases List.mem_cons.mp ha with rfl | h
        · rw [hpa] at hc; cases hc
        · exact h
      rw [List.cons_append, List.takeWhile_cons_of_pos hc, List.takeWhile_cons_of_pos hc,
        ih hacs]
    · simp only [Bool.not_eq_true] at hc
      rw [List.cons_append, List.takeWhile_cons_of_neg (by simp [hc]),
        List.takeWhile_cons_of_neg (by simp [hc])]

theorem filter_false_all {α : Type} {p : α → Bool} {l : List α}
    (h : ∀ c ∈ l, p c = false) : l.filter p = [] := by
  induction l with
  | nil => rfl
  | cons c cs ih =>
    rw [List.filter_cons, h c (List.mem_cons_self c cs)]
    exact ih fun x hx => h x (List.mem_cons_of_mem c hx)

/-! ### Character class facts -/

theorem digit_not_ws {c : Char} (h : isDigitChar c = true) : isSpaceChar c = false := by
  by_contra hws
  simp only [Bool.not_eq_false] at hws
  simp only [isSpaceChar, Bool.or_eq_true, decide_eq_true_eq] at hws
  rcases hws with ((((h1 | h1) | h1) | h1) | h1) | h1 <;>
    (subst h1; exact absurd h (by decide))

theorem digit_ne_nl {c : Char} (h : isDigitChar c = true) : c ≠ '\n' := by
  intro heq
  subst heq
  exact absurd h (by decide)

theorem ws_of_nl : isSpaceChar '\n' = true := rfl

/-! ### Non-whitespace characters are preserved by passes 4-6 -/

theorem subSingleNLAux_cons (prev : Option Char) (c : Char) (rest : List Char) :
    subSingleNLAux prev (c :: rest) =
      (if c = '\n' ∧ prev ≠ some '\n' ∧ (∀ d ∈ rest.head?, d ≠ '\n') then ' ' else c)
        :: subSingleNLAux (some c) rest := rfl

theorem filter_nws_subSingleNL (l : List Char) :
    ∀ prev, (subSingleNLAux prev l).filter (fun c => !isSpaceChar c) =
      l.filter (fun c => !isSpaceChar c) := by
  induction l with
  | nil => intro prev; rfl
  | cons c rest ih =>
    intro prev
    rw [subSingleNLAux_cons, List.filter_cons, List.filter_cons]
    by_cases hc : isSpaceChar c = true
    · have he : isSpaceChar (if c = '\n' ∧ prev ≠ some '\n' ∧ (∀ d ∈ rest.head?, d ≠ '\n')
          then ' ' else c) = true := by
        split
        · rfl
        · exact hc
      rw [he, hc]
      simp only [Bool.not_true, Bool.false_eq_true, if_false]
      exact ih (some c)
    · simp only [Bool.not_eq_true] at hc
      have hcond : ¬(c = '\n' ∧ prev ≠ some '\n' ∧ (∀ d ∈ rest.head?, d ≠ '\n')) := by
        rintro ⟨rfl, -, -⟩
        exact absurd hc (by decide)
      rw [if_neg hcond, hc]
      simp only [Bool.not_false, if_pos rfl]
      rw [ih (some c)]

theorem filter_nws_collapseWS (l : List Char) :
    ∀ b, (collapseWSAux b l).filter (fun c => !isSpaceChar c) =
      l.filter (fun c => !isSpaceChar c) := by
  induction l with
  | nil => intro b; rfl
  | cons c rest ih =>
    intro b
    by_cases hc : isSpaceChar c = true
    · cases b with
      | false =>
        rw [collapseWSAux_cons_ws_false hc, List.filter_cons, List.filter_cons, hc]
        simp only [Bool.not_true, Bool.false_eq_true, if_false,
          show (!isSpaceChar ' ') = false from rfl]
        exact ih true
      | true =>
        rw [collapseWSAux_cons_ws_true hc, List.filter_cons, hc]
        simp only [Bool.not_true, Bool.false_eq_true, if_false]
        exact ih true
    · simp only [Bool.not_eq_true] at hc
      rw [collapseWSAux_cons_nonws hc, List.filter_cons, List.filter_cons, hc]
      simp only [Bool.not_false, if_pos rfl]
      rw [ih false]

theorem filter_nws_pyStrip (l : List Char) :
    (pyStrip l).filter (fun c => !isSpaceChar c) = l.filter (fun c => !isSpaceChar c) := by
  obtain ⟨v, w, hdec, hv, hw⟩ := pyStrip_decomp l
  conv_rhs => rw [hdec]
  rw [List.filter_append, List.filter_append,
    filter_false_all (l := v) (p := fun c => !isSpaceChar c)
      (fun c hc => by simp [hv c hc]),
    filter_false_all (l := w) (p := fun c => !isSpaceChar c)
      (fun c hc => by simp [hw c hc]),
    List.nil_append, List.append_nil]

/-! ### Structure of pass-3 matches -/

theorem lastNewline_split {w : List Char} (h : '\n' ∈ w) :
    ∃ p, w = p ++ '\n' :: afterLastNewline w := by
  cases hd : w.reverse.dropWhile isNotNL with
  | nil =>
    exfalso
    have hmem := List.mem_reverse.mpr h
    have := all_of_dropWhile_nil hd '\n' hmem
    simp [isNotNL] at this
  | cons x xs =>
    have hx' : x = '\n' := isNotNL_eq_false (head_dropWhile_false hd)
    refine ⟨xs.reverse, ?_⟩
    have h1 : w.reverse = w.reverse.takeWhile isNotNL ++ x :: xs := by
      conv_lhs => rw [← List.takeWhile_append_dropWhile (p := isNotNL) (l := w.reverse), hd]
    have h2 : w = (w.reverse.takeWhile isNotNL ++ x :: xs).reverse := by
      rw [← h1, List.reverse_reverse]
    rw [show afterLastNewline w = (w.reverse.takeWhile isNotNL).reverse from rfl]
    conv_lhs => rw [h2]
    rw [List.reverse_append, List.reverse_cons, hx', List.append_assoc,
      List.singleton_append]

theorem digitLineMatch_shape {l res : List Char} (h : digitLineMatch l = some res) :
    res = [] ∨ ∃ r, res = '\n' :: r := by
  simp only [digitLineMatch] at h
  split at h
  · exact absurd h (by simp)
  · split at h
    · simp only [Option.some.injEq] at h
      exact Or.inl h.symm
    · split at h
      · simp only [Option.some.injEq] at h
        exact Or.inr ⟨_, h.symm⟩
      · exact absurd h (by simp)

theorem digitLineMatch_decomp {l res : List Char} (h : digitLineMatch l = some res) :
    ∃ removed, l = removed ++ res ∧
      ∀ c ∈ removed, isSpaceChar c = true ∨ isDigitChar c = true := by
  have hl : l = l.takeWhile (fun c => isSpaceChar c) ++ l.dropWhile (fun c => isSpaceChar c) :=
    (List.takeWhile_append_dropWhile ..).symm
  have hl1 : l.dropWhile (fun c => isSpaceChar c) =
      (l.dropWhile (fun c => isSpaceChar c)).takeWhile (fun c => isDigitChar c) ++
        (l.dropWhile (fun c => isSpaceChar c)).dropWhile (fun c => isDigitChar c) :=
    (List.takeWhile_append_dropWhile ..).symm
  have hl2 : (l.dropWhile (fun c => isSpaceChar c)).dropWhile (fun c => isDigitChar c) =
      ((l.dropWhile (fun c => isSpaceChar c)).dropWhile
          (fun c => isDigitChar c)).takeWhile (fun c => isSpaceChar c) ++
        ((l.dropWhile (fun c => isSpaceChar c)).dropWhile
          (fun c => isDigitChar c)).dropWhile (fun c => isSpaceChar c) :=
    (List.takeWhile_append_dropWhile ..).symm
  simp only [digitLineMatch] at h
  split at h
  · exact absurd h (by simp)
  · split at h
    · rename_i hrest
      simp only [Option.some.injEq] at h
      subst h
      refine ⟨l, by rw [List.append_nil], ?_⟩
      intro c hc
      conv at hc => rw [hl, hl1, hl2, hrest, List.append_nil]
      rcases List.mem_append.mp hc with hc | hc
      · exact Or.inl (List.mem_takeWhile_imp hc)
      · rcases List.mem_append.mp hc with hc | hc
        · exact Or.inr (List.mem_takeWhile_imp hc)
        · exact Or.inl (List.mem_takeWhile_imp hc)
    · split at h
      · rename_i hrest hnl
        simp only [Option.some.injEq] at h
        subst h
        obtain ⟨p, hp⟩ := lastNewline_split hnl
        refine ⟨l.takeWhile (fun c => isSpaceChar c) ++
          (l.dropWhile (fun c => isSpaceChar c)).takeWhile (fun c => isDigitChar c) ++ p,
          ?_, ?_⟩
        · conv_lhs => rw [hl, hl1, hl2, hp]
          simp only [List.append_assoc, List.cons_append]
        · intro c hc
          rcases List.mem_append.mp hc with hc | hc
          · rcases List.mem_append.mp hc with hc | hc
            · exact Or.inl (List.mem_takeWhile_imp hc)
            · exact Or.inr (List.mem_takeWhile_imp hc)
          · have hcw : c ∈ ((l.dropWhile (fun c => isSpaceChar c)).dropWhile
                (fun c => isDigitChar c)).takeWhile (fun c => isSpaceChar c) := by
              rw [hp]
              exact List.mem_append.mpr (Or.inl hc)
            exact Or.inl (List.mem_takeWhile_imp hcw)
      · exact absurd h (by simp)

theorem digitLineMatch_none {l : List Char} (h : digitLineMatch l = none) :
    (l.dropWhile (fun c => isSpaceChar c)).takeWhile (fun c => isDigitChar c) = [] ∨
    ((l.dropWhile (fun c => isSpaceChar c)).takeWhile (fun c => isDigitChar c) ≠ [] ∧
      ((l.dropWhile (fun c => isSpaceChar c)).dropWhile (fun c => isDigitChar c)).dropWhile
        (fun c => isSpaceChar c) ≠ [] ∧
      '\n' ∉ ((l.dropWhile (fun c => isSpaceChar c)).dropWhile
        (fun c => isDigitChar c)).takeWhile (fun c => isSpaceChar c)) := by
  simp only [digitLineMatch] at h
  split at h
  · rename_i hd
    exact Or.inl hd
  · rename_i hd
    split at h
    · exact absurd h (by simp)
    · split at h
      · exact absurd h (by simp)
      · rename_i hrest hnl
        exact Or.inr ⟨hd, hrest, hnl⟩

/-! ### Equations for the pass-3 scanner -/

theorem subDLGo_succ_some_nil {fuel : Nat} {l : List Char}
    (hm : digitLineMatch l = some []) : subDLGo (fuel + 1) l = [] := by
  simp [subDLGo, hm]

theorem subDLGo_succ_some_cons {fuel : Nat} {l : List Char} {c : Char} {r : List Char}
    (hm : digitLineMatch l = some (c :: r)) :
    subDLGo (fuel + 1) l = c :: subDLGo fuel r := by
  simp [subDLGo, hm]

theorem subDLGo_succ_none_nonl {fuel : Nat} {l : List Char}
    (hm : digitLineMatch l = none) (hnl : l.dropWhile isNotNL = []) :
    subDLGo (fuel + 1) l = l := by
  simp [subDLGo, hm, hnl]

theorem subDLGo_succ_none_nl {fuel : Nat} {l : List Char} {x : Char} {rest : List Char}
    (hm : digitLineMatch l = none) (hnl : l.dropWhile isNotNL = x :: rest) :
    subDLGo (fuel + 1) l = l.takeWhile isNotNL ++ '\n' :: subDLGo fuel rest := by
  simp [subDLGo, hm, hnl]

/-- Pass 3 only deletes whitespace and digit characters: the sublist of
characters that are neither whitespace nor digits is untouched. -/
theorem filter_pq_subDLGo :
    ∀ (fuel : Nat) (l : List Char),
      (subDLGo fuel l).filter (fun c => !isSpaceChar c && !isDigitChar c) =
        l.filter (fun c => !isSpaceChar c && !isDigitChar c) := by
  intro fuel
  induction fuel with
  | zero => intro l; rfl
  | succ fuel ih =>
    intro l
    cases hm : digitLineMatch l with
    | some res =>
      obtain ⟨removed, hdec, hrm⟩ := digitLineMatch_decomp hm
      have hremoved : removed.filter (fun c => !isSpaceChar c && !isDigitChar c) = [] := by
        apply filter_false_all
        intro c hc
        rcases hrm c hc with h | h
        · rw [h]; rfl
        · rw [digit_not_ws h, h]; rfl
      rcases digitLineMatch_shape hm with rfl | ⟨r, rfl⟩
      · rw [subDLGo_succ_some_nil hm, hdec, List.filter_append, hremoved]
        rfl
      · rw [subDLGo_succ_some_cons hm, hdec, List.filter_append, hremoved, List.nil_append,
          List.filter_cons, List.filter_cons, ih r]
    | none =>
      cases hnl : l.dropWhile isNotNL with
      | nil => rw [subDLGo_succ_none_nonl hm hnl]
      | cons x rest =>
        have hx' : x = '\n' := isNotNL_eq_false (head_dropWhile_false hnl)
        subst hx'
        have hl : l = l.takeWhile isNotNL ++ '\n' :: rest := by
          conv_lhs => rw [← List.takeWhile_append_dropWhile (p := isNotNL) (l := l), hnl]
        rw [subDLGo_succ_none_nl hm hnl]
        conv_rhs => rw [hl]
        rw [List.filter_append, List.filter_append, List.filter_cons, List.filter_cons,
          show (!isSpaceChar '\n' && !isDigitChar '\n') = false from rfl]
        simp only [Bool.false_eq_true, if_false]
        rw [ih rest]

/-! ### The cascade argument: on whitespace-and-digit-only input, pass 3
never leaves exactly one token -/

theorem tokState_true_of_all_nonws {w : List Char} (hne : w ≠ [])
    (h : ∀ c ∈ w, isSpaceChar c = false) : ∀ b, tokState b w = true := by
  induction w with
  | nil => exact absurd rfl hne
  | cons c cs ih =>
    intro b
    rw [tokState_cons, h c (List.mem_cons_self c cs), Bool.not_false]
    rcases Decidable.em (cs = []) with hcs | hcs
    · subst hcs; rfl
    · exact ih hcs (fun x hx => h x (List.mem_cons_of_mem c hx)) true

theorem isNotNL_true_of_ne {c : Char} (h : c ≠ '\n') : isNotNL c = true := by
  simp [isNotNL, h]

theorem mem_of_mem_dropWhile {p : Char → Bool} {l : List Char} {c : Char}
    (h : c ∈ l.dropWhile p) : c ∈ l :=
  (List.dropWhile_sublist _).mem h

theorem mem_of_mem_takeWhile {p : Char → Bool} {l : List Char} {c : Char}
    (h : c ∈ l.takeWhile p) : c ∈ l :=
  (List.takeWhile_sublist _).mem h

theorem all_ws_of_no_digit_line {l : List Char}
    (hd : (l.dropWhile (fun c => isSpaceChar c)).takeWhile (fun c => isDigitChar c) = [])
    (halpha : ∀ c ∈ l, isSpaceChar c = true ∨ isDigitChar c = true) :
    ∀ c ∈ l, isSpaceChar c = true := by
  cases hl1 : l.dropWhile (fun c => isSpaceChar c) with
  | nil => exact all_of_dropWhile_nil hl1
  | cons c cs =>
    exfalso
    have hcws : isSpaceChar c = false := head_dropWhile_false hl1
    have hcl : c ∈ l := by
      apply mem_of_mem_dropWhile (p := fun c => isSpaceChar c)
      rw [hl1]
      exact List.mem_cons_self ..
    have hcd : isDigitChar c = true := by
      rcases halpha c hcl with h | h
      · rw [h] at hcws; cases hcws
      · exact h
    rw [hl1, List.takeWhile_cons_of_pos hcd] at hd
    cases hd

/-- On whitespace-and-digit-only text with no pass-3 match at the current
line start, the first line of the text contains either no token at all or
at least two (the blocking digit run and the digit run after the
whitespace that blocked the match). -/
theorem digitLineNoMatch_tokLine {l : List Char} (hm : digitLineMatch l = none)
    (halpha : ∀ c ∈ l, isSpaceChar c = true ∨ isDigitChar c = true) :
    numTokAux false (l.takeWhile isNotNL) = 0 ∨
      2 ≤ numTokAux false (l.takeWhile isNotNL) := by
  rcases digitLineMatch_none hm with hd | ⟨hd, hrest, hnlw2⟩
  · -- no digits: text is all whitespace, so its first line holds no token
    left
    exact numTokAux_all_ws
      (fun c hc => all_ws_of_no_digit_line hd halpha c (mem_of_mem_takeWhile hc)) false
  · have hldec : l = l.takeWhile (fun c => isSpaceChar c) ++
        l.dropWhile (fun c => isSpaceChar c) := (List.takeWhile_append_dropWhile ..).symm
    have hl1dec : l.dropWhile (fun c => isSpaceChar c) =
        (l.dropWhile (fun c => isSpaceChar c)).takeWhile (fun c => isDigitChar c) ++
          (l.dropWhile (fun c => isSpaceChar c)).dropWhile (fun c => isDigitChar c) :=
      (List.takeWhile_append_dropWhile ..).symm
    have hl2dec : (l.dropWhile (fun c => isSpaceChar c)).dropWhile (fun c => isDigitChar c) =
        ((l.dropWhile (fun c => isSpaceChar c)).dropWhile
            (fun c => isDigitChar c)).takeWhile (fun c => isSpaceChar c) ++
          ((l.dropWhile (fun c => isSpaceChar c)).dropWhile
            (fun c => isDigitChar c)).dropWhile (fun c => isSpaceChar c) :=
      (List.takeWhile_append_dropWhile ..).symm
    -- names for the five segments
    set W1 := l.takeWhile (fun c => isSpaceChar c) with hW1
    set d := (l.dropWhile (fun c => isSpaceChar c)).takeWhile (fun c => isDigitChar c) with hdd
    set w2 := ((l.dropWhile (fun c => isSpaceChar c)).dropWhile
      (fun c => isDigitChar c)).takeWhile (fun c => isSpaceChar c) with hw2
    set rtl := ((l.dropWhile (fun c => isSpaceChar c)).dropWhile
      (fun c => isDigitChar c)).dropWhile (fun c => isSpaceChar c) with hrtl
    have hW1ws : ∀ c ∈ W1, isSpaceChar c = true := fun c hc => List.mem_takeWhile_imp hc
    have hddig : ∀ c ∈ d, isDigitChar c = true := fun c hc => List.mem_takeWhile_imp hc
    have hw2ws : ∀ c ∈ w2, isSpaceChar c = true := fun c hc => List.mem_takeWhile_imp hc
    by_cases hW1nl : '\n' ∈ W1
    · -- the leading whitespace of the line ends before the digits: no token
      left
      have hpre : l.takeWhile isNotNL = W1.takeWhile isNotNL := by
        conv_lhs => rw [hldec]
        exact takeWhile_append_stop hW1nl (by simp [isNotNL]) _
      rw [hpre]
      exact numTokAux_all_ws
        (fun c hc => hW1ws c (mem_of_mem_takeWhile hc)) false
    · -- the line contains the digit run and, after non-newline whitespace,
      -- the head of the remainder: two tokens
      right
      have hW1nn : ∀ c ∈ W1, isNotNL c = true := by
        intro c hc
        exact isNotNL_true_of_ne fun hceq => hW1nl (hceq ▸ hc)
      have hdnn : ∀ c ∈ d, isNotNL c = true := fun c hc =>
        isNotNL_true_of_ne (digit_ne_nl (hddig c hc))
      have hw2nn : ∀ c ∈ w2, isNotNL c = true := by
        intro c hc
        exact isNotNL_true_of_ne fun hceq => hnlw2 (hceq ▸ hc)
      have hpre : l.takeWhile isNotNL = W1 ++ (d ++ (w2 ++ rtl.takeWhile isNotNL)) := by
        conv_lhs => rw [hldec, hl1dec, hl2dec]
        rw [takeWhile_append_all hW1nn, takeWhile_append_all hdnn,
          takeWhile_append_all hw2nn]
      rw [hpre]
      -- the remainder begins with a digit
      obtain ⟨r0, r1, hr⟩ : ∃ r0 r1, rtl = r0 :: r1 := by
        cases hr : rtl with
        | nil => exact absurd hr hrest
        | cons r0 r1 => exact ⟨r0, r1, rfl⟩
      have hr0ws : isSpaceChar r0 = false := head_dropWhile_false (hrtl ▸ hr)
      have hr0l : r0 ∈ l := by
        have h1 : r0 ∈ rtl := by rw [hr]; exact List.mem_cons_self ..
        rw [hrtl] at h1
        exact mem_of_mem_dropWhile (mem_of_mem_dropWhile (mem_of_mem_dropWhile h1))
      have hr0d : isDigitChar r0 = true := by
        rcases halpha r0 hr0l with h | h
        · rw [h] at hr0ws; cases hr0ws
        · exact h
      have hdne : d ≠ [] := hd
      -- the digit run is nonempty and all non-whitespace
      have hdnws : ∀ c ∈ d, isSpaceChar c = false := fun c hc => digit_not_ws (hddig c hc)
      -- w2 is nonempty: the character after the digit run is whitespace
      have hw2ne : w2 ≠ [] := by
        obtain ⟨c2, cs2, hc2⟩ : ∃ c2 cs2, (l.dropWhile (fun c => isSpaceChar c)).dropWhile
            (fun c => isDigitChar c) = c2 :: cs2 := by
          cases hcc : (l.dropWhile (fun c => isSpaceChar c)).dropWhile
              (fun c => isDigitChar c) with
          | nil =>
            exfalso
            apply hrest
            rw [hrtl, hcc]
            rfl
          | cons c2 cs2 => exact ⟨c2, cs2, rfl⟩
        have hc2d : isDigitChar c2 = false := head_dropWhile_false hc2
        have hc2l : c2 ∈ l := by
          have h1 : c2 ∈ (l.dropWhile (fun c => isSpaceChar c)).dropWhile
              (fun c => isDigitChar c) := by
            rw [hc2]; exact List.mem_cons_self ..
          exact mem_of_mem_dropWhile (mem_of_mem_dropWhile h1)
        have hc2ws : isSpaceChar c2 = true := by
          rcases halpha c2 hc2l with h | h
          · exact h
          · rw [h] at hc2d; cases hc2d
        rw [hw2, hc2, List.takeWhile_cons_of_pos hc2ws]
        simp
      -- assemble the count
      rw [numTokAux_ws_append hW1ws, numTokAux_append, numTokAux_one_all_nonws hdne hdnws,
        tokState_true_of_all_nonws hdne hdnws false, numTokAux_append,
        numTokAux_all_ws hw2ws true,
        tokState_false_of_all_ws hw2ws true (Or.inr hw2ne)]
      have hr0nn : isNotNL r0 = true := isNotNL_true_of_ne (digit_ne_nl hr0d)
      rw [hr, List.takeWhile_cons_of_pos hr0nn, numTokAux_cons_nonws hr0ws,
        if_neg (by decide : ¬(false = true))]
      omega

/-- The cascade: pass 3 applied to whitespace-and-digit-only text leaves
either no token or at least two tokens — never exactly one.  (A digit run
can survive only when the match at its line start is blocked, and the
blocking configuration forces a second surviving digit run on the same
line.) -/
theorem subDLGo_numTok_cascade :
    ∀ (fuel : Nat) (l : List Char), l.length ≤ fuel →
      (∀ c ∈ l, isSpaceChar c = true ∨ isDigitChar c = true) →
      numTokens (subDLGo fuel l) = 0 ∨ 2 ≤ numTokens (subDLGo fuel l) := by
  intro fuel
  induction fuel with
  | zero =>
    intro l hlen _
    have hnil : l = [] := List.eq_nil_of_length_eq_zero (Nat.le_zero.mp hlen)
    subst hnil
    exact Or.inl rfl
  | succ fuel ih =>
    intro l hlen halpha
    cases hm : digitLineMatch l with
    | some res =>
      rcases digitLineMatch_shape hm with rfl | ⟨r, rfl⟩
      · rw [subDLGo_succ_some_nil hm]
        exact Or.inl rfl
      · rw [subDLGo_succ_some_cons hm]
        have hlen2 := digitLineMatch_length hm
        obtain ⟨removed, hdec, -⟩ := digitLineMatch_decomp hm
        have hsub : ∀ c ∈ r, isSpaceChar c = true ∨ isDigitChar c = true := by
          intro c hc
          apply halpha
          rw [hdec]
          exact List.mem_append.mpr (Or.inr (List.mem_cons_of_mem _ hc))
        have hrlen : r.length ≤ fuel := by
          simp only [List.length_cons] at hlen2
          omega
        have hres := ih r hrlen hsub
        have heq : numTokens ('\n' :: subDLGo fuel r) = numTokens (subDLGo fuel r) :=
          numTokAux_cons_ws ws_of_nl _ false
        rw [heq]
        exact hres
    | none =>
      cases hnl : l.dropWhile isNotNL with
      | nil =>
        rw [subDLGo_succ_none_nonl hm hnl]
        have hall : l.takeWhile isNotNL = l := by
          conv_rhs => rw [← List.takeWhile_append_dropWhile (p := isNotNL) (l := l), hnl,
            List.append_nil]
        have := digitLineNoMatch_tokLine hm halpha
        rw [hall] at this
        exact this
      | cons x rest =>
        have hx' : x = '\n' := isNotNL_eq_false (head_dropWhile_false hnl)
        subst hx'
        rw [subDLGo_succ_none_nl hm hnl]
        have hsub : ∀ c ∈ rest, isSpaceChar c = true ∨ isDigitChar c = true := by
          intro c hc
          apply halpha
          apply mem_of_mem_dropWhile (p := isNotNL)
          rw [hnl]
          exact List.mem_cons_of_mem _ hc
        have hrlen : rest.length ≤ fuel := by
          have h1 : (l.dropWhile isNotNL).length ≤ l.length :=
            (List.dropWhile_sublist _).length_le
          rw [hnl] at h1
          simp only [List.length_cons] at h1
          omega
        have hres := ih rest hrlen hsub
        have hline := digitLineNoMatch_tokLine hm halpha
        have hsplit : l.takeWhile isNotNL ++ '\n' :: subDLGo fuel rest =
            (l.takeWhile isNotNL ++ ['\n']) ++ subDLGo fuel rest := by
          rw [List.append_assoc, List.singleton_append]
        rw [hsplit]
        unfold numTokens at hres hline ⊢
        rw [numTokAux_append, numTokAux_append_ws (by
          intro c hc
          simp only [List.mem_singleton] at hc
          subst hc
          rfl) (l.takeWhile isNotNL)]
        have hst : tokState false (l.takeWhile isNotNL ++ ['\n']) = false := by
          rw [tokState_append]
          rfl
        rw [hst]
        rcases hline with h1 | h1 <;> rcases hres with h2 | h2 <;> omega

/-! ### Shape of the final output: single spaces only, trimmed ends -/

theorem collapseWSAux_true_head {l : List Char} :
    ∀ {c : Char} {r : List Char}, collapseWSAux true l = c :: r → isSpaceChar c = false := by
  induction l with
  | nil => intro c r h; cases h
  | cons x rest ih =>
    intro c r h
    by_cases hx : isSpaceChar x = true
    · rw [collapseWSAux_cons_ws_true hx] at h
      exact ih h
    · simp only [Bool.not_eq_true] at hx
      rw [collapseWSAux_cons_nonws hx] at h
      cases h
      exact hx

/-- No two adjacent whitespace characters occur in the text. -/
def noAdjWS : List Char → Bool
  | [] => true
  | [_] => true
  | a :: b :: r => !(isSpaceChar a && isSpaceChar b) && noAdjWS (b :: r)

theorem noAdjWS_cons {c : Char} {l : List Char} (hc : isSpaceChar c = false)
    (hl : noAdjWS l = true) : noAdjWS (c :: l) = true := by
  cases l with
  | nil => rfl
  | cons b r =>
    show (!(isSpaceChar c && isSpaceChar b) && noAdjWS (b :: r)) = true
    rw [hc, hl]
    rfl

theorem noAdjWS_tail {c : Char} {l : List Char} (h : noAdjWS (c :: l) = true) :
    noAdjWS l = true := by
  cases l with
  | nil => rfl
  | cons b r =>
    have h' : (!(isSpaceChar c && isSpaceChar b) && noAdjWS (b :: r)) = true := h
    exact (Bool.and_eq_true .. ▸ h').2

theorem collapseWSAux_noAdj (l : List Char) : ∀ b, noAdjWS (collapseWSAux b l) = true := by
  induction l with
  | nil => intro b; rfl
  | cons c rest ih =>
    intro b
    by_cases hc : isSpaceChar c = true
    · cases b with
      | true =>
        rw [collapseWSAux_cons_ws_true hc]
        exact ih true
      | false =>
        rw [collapseWSAux_cons_ws_false hc]
        cases htail : collapseWSAux true rest with
        | nil => rfl
        | cons x r =>
          have hx := collapseWSAux_true_head htail
          show (!(isSpaceChar ' ' && isSpaceChar x) && noAdjWS (x :: r)) = true
          rw [hx, ← htail, ih true]
          decide
    · simp only [Bool.not_eq_true] at hc
      rw [collapseWSAux_cons_nonws hc]
      exact noAdjWS_cons hc (ih false)

theorem noAdjWS_no_double :
    ∀ (a l b : List Char), noAdjWS l = true → l ≠ a ++ ' ' :: ' ' :: b := by
  intro a
  induction a with
  | nil =>
    intro l b h heq
    subst heq
    have h' : (!(isSpaceChar ' ' && isSpaceChar ' ') && noAdjWS (' ' :: b)) = true := h
    rw [show isSpaceChar ' ' = true from rfl] at h'
    simp at h'
  | cons x a' ih =>
    intro l b h heq
    subst heq
    rw [List.cons_append] at h
    exact ih _ b (noAdjWS_tail h) rfl

theorem pyStrip_mid (l : List Char) :
    l.dropWhile (fun c => isSpaceChar c) = pyStrip l ++
      ((l.dropWhile (fun c => isSpaceChar c)).reverse.takeWhile
        (fun c => isSpaceChar c)).reverse := by
  have h2 : (l.dropWhile (fun c => isSpaceChar c)).reverse =
      (l.dropWhile (fun c => isSpaceChar c)).reverse.takeWhile (fun c => isSpaceChar c) ++
        (l.dropWhile (fun c => isSpaceChar c)).reverse.dropWhile (fun c => isSpaceChar c) :=
    (List.takeWhile_append_dropWhile ..).symm
  conv_lhs => rw [← List.reverse_reverse (l.dropWhile (fun c => isSpaceChar c)), h2]
  rw [List.reverse_append]
  rfl

theorem pyStrip_head {l : List Char} {c : Char}
    (h : (pyStrip l).head? = some c) : isSpaceChar c = false := by
  cases hps : pyStrip l with
  | nil => rw [hps] at h; cases h
  | cons c' t =>
    rw [hps] at h
    have hc' : c' = c := by
      simpa using h
    subst hc'
    have hm := pyStrip_mid l
    rw [hps, List.cons_append] at hm
    exact head_dropWhile_false hm

theorem pyStrip_last {l : List Char} {c : Char}
    (h : (pyStrip l).getLast? = some c) : isSpaceChar c = false := by
  unfold pyStrip at h
  rw [List.getLast?_reverse] at h
  cases hd : (l.dropWhile (fun c => isSpaceChar c)).reverse.dropWhile
      (fun c => isSpaceChar c) with
  | nil => rw [hd] at h; cases h
  | cons x xs =>
    rw [hd] at h
    have hx : x = c := by simpa using h
    subst hx
    exact head_dropWhile_false hd

/-! ### Claims C9 and its correction -/

/-- Counterexample to claim C9: on the input below, pass 2 removes the
whole-word match `page 5` and thereby joins `!page ` with ` 6!`, so the
cleaned output `!page 6!` contains a whole-word occurrence of the
page-number pattern (`page 6`).  `re.sub` does not rescan the text it has
already joined, and no later pass removes the new occurrence. -/
theorem claim_C9_counterexample :
    clean_text "!page page 5 6!".toList = "!page 6!".toList ∧
    hasPagePattern (clean_text "!page page 5 6!".toList) = true := by
  constructor
  · decide
  · decide

/-- Claim C9 as amended: the output of `clean_text` never consists solely
of digits (no digit-only line survives — and by C10 the output is a single
line), every whitespace character of the output is a plain space, no two
adjacent spaces occur, and the output is trimmed on both ends.  The
original claim's guarantee that the output contains no page-number
pattern is dropped: it fails (`claim_C9_counterexample`) because the
single-pass substitution can juxtapose text into a fresh occurrence. -/
theorem claim_C9_amended (t : List Char) :
    ((clean_text t).all isDigitChar = true → clean_text t = []) ∧
    (∀ c ∈ clean_text t, isSpaceChar c = true → c = ' ') ∧
    (∀ a b : List Char, clean_text t ≠ a ++ ' ' :: ' ' :: b) ∧
    (∀ c, (clean_text t).head? = some c → isSpaceChar c = false) ∧
    (∀ c, (clean_text t).getLast? = some c → isSpaceChar c = false) := by
  refine ⟨?_, ?_, ?_, ?_, ?_⟩
  · -- no digit-only output
    intro hall
    by_contra hne
    have hnws : ∀ c ∈ clean_text t, isSpaceChar c = false := fun c hc =>
      digit_not_ws (List.all_eq_true.mp hall c hc)
    have h1 : numTokens (clean_text t) = 1 := numTokens_all_nonws hne hnws
    have hA : numTokAux false (subDLGo (subPage (collapseNewlines t)).length
        (subPage (collapseNewlines t))) = 1 := by
      have h2 : numTokens (clean_text t) =
          numTokAux false (subDLGo (subPage (collapseNewlines t)).length
            (subPage (collapseNewlines t))) := by
        show numTokens (pyStrip (collapseWSAux false (subSingleNLAux none
          (subDLGo (subPage (collapseNewlines t)).length
            (subPage (collapseNewlines t)))))) = _
        rw [pyStrip_numTok]
        unfold numTokens
        rw [(collapseWSAux_numTok _).1 false, subSingleNLAux_numTok]
      rw [← h2, h1]
    have hf : (clean_text t).filter (fun c => !isSpaceChar c) =
        (subDLGo (subPage (collapseNewlines t)).length
          (subPage (collapseNewlines t))).filter (fun c => !isSpaceChar c) := by
      show (pyStrip (collapseWSAux false (subSingleNLAux none
        (subDLGo (subPage (collapseNewlines t)).length
          (subPage (collapseNewlines t)))))).filter _ = _
      rw [filter_nws_pyStrip, filter_nws_collapseWS, filter_nws_subSingleNL]
    have halpha : ∀ c ∈ subPage (collapseNewlines t),
        isSpaceChar c = true ∨ isDigitChar c = true := by
      intro c hc
      by_cases hws : isSpaceChar c = true
      · exact Or.inl hws
      · right
        simp only [Bool.not_eq_true] at hws
        by_contra hdig
        simp only [Bool.not_eq_true] at hdig
        have hc3 : c ∈ (subDLGo (subPage (collapseNewlines t)).length
            (subPage (collapseNewlines t))).filter
              (fun c => !isSpaceChar c && !isDigitChar c) := by
          rw [filter_pq_subDLGo]
          exact List.mem_filter.mpr ⟨hc, by rw [hws, hdig]; rfl⟩
        have hc4 := (List.mem_filter.mp hc3).1
        have hc5 : c ∈ (subDLGo (subPage (collapseNewlines t)).length
            (subPage (collapseNewlines t))).filter (fun c => !isSpaceChar c) :=
          List.mem_filter.mpr ⟨hc4, by rw [hws]; rfl⟩
        rw [← hf] at hc5
        have hc6 := (List.mem_filter.mp hc5).1
        have hdig2 := List.all_eq_true.mp hall c hc6
        rw [hdig] at hdig2
        cases hdig2
    have hcas := subDLGo_numTok_cascade (subPage (collapseNewlines t)).length
      (subPage (collapseNewlines t)) (Nat.le_refl _) halpha
    unfold numTokens at hcas
    rcases hcas with h | h <;> omega
  · -- all whitespace in the output is a plain space
    intro c hmem hws
    unfold clean_text at hmem
    have h1 := mem_pyStrip hmem
    unfold collapseWhitespace at h1
    exact collapseWSAux_ws_mem h1 hws
  · -- no two adjacent spaces
    intro a b heq
    have hnadj : noAdjWS (collapseWhitespace (subSingleNewlines (subDigitLines
        (subPage (collapseNewlines t))))) = true := collapseWSAux_noAdj _ false
    obtain ⟨v, w, hdec, -, -⟩ := pyStrip_decomp (collapseWhitespace (subSingleNewlines
      (subDigitLines (subPage (collapseNewlines t)))))
    have hct : clean_text t = pyStrip (collapseWhitespace (subSingleNewlines (subDigitLines
        (subPage (collapseNewlines t))))) := rfl
    rw [hct] at heq
    rw [heq] at hdec
    have hform : collapseWhitespace (subSingleNewlines (subDigitLines
        (subPage (collapseNewlines t)))) = (v ++ a) ++ ' ' :: ' ' :: (b ++ w) := by
      rw [hdec]
      simp only [List.append_assoc, List.cons_append]
    exact noAdjWS_no_double (v ++ a) _ (b ++ w) hnadj hform
  · -- trimmed on the left
    intro c hc
    exact pyStrip_head hc
  · -- trimmed on the right
    intro c hc
    exact pyStrip_last hc

/-- Witness for the amended C9: a digit-only input is cleaned to the empty
text (its digit line is removed), discharging the digit-only hypothesis at
a concrete input. -/
theorem claim_C9_witness : clean_text "5".toList = [] :=
  (claim_C9_amended "5".toList).1 (by decide)

/-! ### MD5 (RFC 1321) over byte lists

`hashlib.md5` is Python standard library; it is embedded in full so that
`get_file_hash` is the real fingerprint function of the source. -/

/-- The 64 sine-derived constants of MD5. -/
def md5K : List Nat := [
  0xd76aa478, 0xe8c7b756, 0x242070db, 0xc1bdceee,
  0xf57c0faf, 0x4787c62a, 0xa8304613, 0xfd469501,
  0x698098d8, 0x8b44f7af, 0xffff5bb1, 0x895cd7be,
  0x6b901122, 0xfd987193, 0xa679438e, 0x49b40821,
  0xf61e2562, 0xc040b340, 0x265e5a51, 0xe9b6c7aa,
  0xd62f105d, 0x02441453, 0xd8a1e681, 0xe7d3fbc8,
  0x21e1cde6, 0xc33707d6, 0xf4d50d87, 0x455a14ed,
  0xa9e3e905, 0xfcefa3f8, 0x676f02d9, 0x8d2a4c8a,
  0xfffa3942, 0x8771f681, 0x6d9d6122, 0xfde5380c,
  0xa4beea44, 0x4bdecfa9, 0xf6bb4b60, 0xbebfbc70,
  0x289b7ec6, 0xeaa127fa, 0xd4ef3085, 0x04881d05,
  0xd9d4d039, 0xe6db99e5, 0x1fa27cf8, 0xc4ac5665,
  0xf4292244, 0x432aff97, 0xab9423a7, 0xfc93a039,
  0x655b59c3, 0x8f0ccc92, 0xffeff47d, 0x85845dd1,
  0x6fa87e4f, 0xfe2ce6e0, 0xa3014314, 0x4e0811a1,
  0xf7537e82, 0xbd3af235, 0x2ad7d2bb, 0xeb86d391]

/-- The per-round left-rotation amounts of MD5. -/
def md5S : List Nat := [
  7, 12, 17, 22, 7, 12, 17, 22, 7, 12, 17, 22, 7, 12, 17, 22,
  5, 9, 14, 20, 5, 9, 14, 20, 5, 9, 14, 20, 5, 9, 14, 20,
  4, 11, 16, 23, 4, 11, 16, 23, 4, 11, 16, 23, 4, 11, 16, 23,
  6, 10, 15, 21, 6, 10, 15, 21, 6, 10, 15, 21, 6, 10, 15, 21]

/-- 2 to the 32nd, the word modulus of MD5. -/
def w32 : Nat := 4294967296

/-- 32-bit left rotation (for `x < 2^32`). -/
def rotl32 (x c : Nat) : Nat := ((x <<< c) ||| (x >>> (32 - c))) % w32

/-- The four round functions of MD5 (complement as xor with the all-ones
32-bit word). -/
def md5F (i b c d : Nat) : Nat :=
  if i < 16 then (b &&& c) ||| ((b ^^^ 4294967295) &&& d)
  else if i < 32 then (d &&& b) ||| ((d ^^^ 4294967295) &&& c)
  else if i < 48 then b ^^^ c ^^^ d
  else c ^^^ (b ||| (d ^^^ 4294967295))

/-- The message-word schedule of MD5. -/
def md5G (i : Nat) : Nat :=
  if i < 16 then i
  else if i < 32 then (5 * i + 1) % 16
  else if i < 48 then (3 * i + 5) % 16
  else (7 * i) % 16

/-- Decode a block of bytes into little-endian 32-bit words. -/
def decodeWords : List Nat → List Nat
  | b0 :: b1 :: b2 :: b3 :: rest =>
    (b0 + (b1 <<< 8) + (b2 <<< 16) + (b3 <<< 24)) :: decodeWords rest
  | _ => []

/-- One MD5 round on the state (A, B, C, D). -/
def md5Round (M : List Nat) (st : Nat × Nat × Nat × Nat) (i : Nat) :
    Nat × Nat × Nat × Nat :=
  let f := (md5F i st.2.1 st.2.2.1 st.2.2.2 + st.1 + md5K.getD i 0 +
    M.getD (md5G i) 0) % w32
  (st.2.2.2, (st.2.1 + rotl32 f (md5S.getD i 0)) % w32, st.2.1, st.2.2.1)

/-- Process one 64-byte block: 64 rounds, then add the old state. -/
def md5Block (st : Nat × Nat × Nat × Nat) (block : List Nat) :
    Nat × Nat × Nat × Nat :=
  let M := decodeWords block
  let r := (List.range 64).foldl (md5Round M) st
  ((st.1 + r.1) % w32, (st.2.1 + r.2.1) % w32,
    (st.2.2.1 + r.2.2.1) % w32, (st.2.2.2 + r.2.2.2) % w32)

/-- Split a byte list into 64-byte blocks (fuel-driven, the list length
suffices). -/
def chunks64 : Nat → List Nat → List (List Nat)
  | 0, _ => []
  | fuel + 1, l => if l = [] then [] else l.take 64 :: chunks64 fuel (l.drop 64)

/-- Little-endian byte rendering of a number on `k` bytes. -/
def leBytes : Nat → Nat → List Nat
  | _, 0 => []
  | n, k + 1 => (n % 256) :: leBytes (n / 256) k

/-- MD5 padding: a 0x80 byte, zeros to 56 mod 64, then the bit length on
8 little-endian bytes. -/
def md5Pad (msg : List Nat) : List Nat :=
  msg ++ 0x80 :: (List.replicate ((119 - msg.length % 64) % 64) 0 ++
    leBytes ((msg.length * 8) % 18446744073709551616) 8)

/-- The 16-byte MD5 digest of a byte list. -/
def md5Digest (msg : List Nat) : List Nat :=
  let padded := md5Pad msg
  let st := (chunks64 padded.length padded).foldl md5Block
    (0x67452301, 0xefcdab89, 0x98badcfe, 0x10325476)
  leBytes st.1 4 ++ leBytes st.2.1 4 ++ leBytes st.2.2.1 4 ++ leBytes st.2.2.2 4

/-- Lower-case hexadecimal digit. -/
def hexDigitChar (n : Nat) : Char :=
  if n < 10 then Char.ofNat (48 + n) else Char.ofNat (87 + n)

/-- Two hexadecimal characters of one byte. -/
def byteToHex (b : Nat) : List Char := [hexDigitChar (b / 16), hexDigitChar (b % 16)]

/-- The 32-character hexadecimal MD5 digest of a byte list, as returned by
`hashlib.md5(...).hexdigest()`. -/
def md5Hex (msg : List Nat) : List Char := (md5Digest msg).flatMap byteToHex

set_option maxRecDepth 100000 in
/-- RFC 1321 test vector: the empty message. -/
theorem md5Hex_empty : md5Hex [] = "d41d8cd98f00b204e9800998ecf8427e".toList := by
  decide

set_option maxRecDepth 100000 in
/-- RFC 1321 test vector: the message abc. -/
theorem md5Hex_abc : md5Hex [97, 98, 99] = "900150983cd24fb0d6963f7d28e17f72".toList := by
  decide

/-! ### The fingerprinter `get_file_hash` -/

/-- State of a `hashlib.md5()` object: the bytes accumulated so far. -/
structure Md5Ctx where
  data : List Nat

/-- `hashlib.md5()`. -/
def md5InitCtx : Md5Ctx := ⟨[]⟩

/-- `hasher.update(buf)`. -/
def md5Update (ctx : Md5Ctx) (buf : List Nat) : Md5Ctx := ⟨ctx.data ++ buf⟩

/-- `hasher.hexdigest()`. -/
def hexdigest (ctx : Md5Ctx) : List Char := md5Hex ctx.data

/-- A file opened for binary reading: the filesystem is a map from paths
to byte contents. -/
structure PyFile where
  content : List Nat

/-- `open(filepath, "rb")` against a filesystem. -/
def pyOpen (fs : List Char → List Nat) (filepath : List Char) : PyFile :=
  ⟨fs filepath⟩

/-- `f.read()`: the entire contents of the file. -/
def fileReadAll (f : PyFile) : List Nat := f.content

/-- Embedding of `get_file_hash` from `ollama_rag_creation_updation.py`:
create an MD5 hasher, read the whole file, feed the complete buffer to the
hasher once, and return the hexadecimal digest. -/
def get_file_hash (fs : List Char → List Nat) (filepath : List Char) : List Char :=
  let hasher := md5InitCtx
  let f := pyOpen fs filepath
  let buf := fileReadAll f
  hexdigest (md5Update hasher buf)

/-- Claim C6: `get_file_hash` is the MD5 hexadecimal digest of the file's
entire raw byte content — it feeds the complete read buffer to the hasher,
and as a pure function of those bytes it returns identical fingerprints
for identical contents across any two calls. -/
theorem claim_C6 :
    (∀ (fs : List Char → List Nat) (p : List Char),
      get_file_hash fs p = md5Hex (fs p)) ∧
    (∀ (fs1 fs2 : List Char → List Nat) (p1 p2 : List Char),
      fs1 p1 = fs2 p2 → get_file_hash fs1 p1 = get_file_hash fs2 p2) := by
  constructor
  · intro fs p
    rfl
  · intro fs1 fs2 p1 p2 h
    show md5Hex (fs1 p1) = md5Hex (fs2 p2)
    rw [h]

/-- Witness for C6: two files with identical bytes have identical
fingerprints. -/
theorem claim_C6_witness :
    get_file_hash (fun _ => [97, 98, 99]) "a.pdf".toList =
      get_file_hash (fun _ => [97, 98, 99]) "b.pdf".toList :=
  claim_C6.2 _ _ _ _ rfl

/-! ### Paths and the persisted fingerprint table -/

/-- Test that a character is not a path separator. -/
def isNotSlash (c : Char) : Bool := c ≠ '/'

/-- `os.path.join(dir, name)` (POSIX). -/
def pjoin (dir name : List Char) : List Char := dir ++ '/' :: name

/-- `os.path.basename(p)`: the suffix after the last separator. -/
def basename (p : List Char) : List Char := (p.reverse.takeWhile isNotSlash).reverse

theorem basename_pjoin {name : List Char} (h : '/' ∉ name) (dir : List Char) :
    basename (pjoin dir name) = name := by
  unfold basename pjoin
  rw [List.reverse_append, List.reverse_cons]
  have hnn : ∀ c ∈ name.reverse, isNotSlash c = true := by
    intro c hc
    rw [List.mem_reverse] at hc
    simp only [isNotSlash, ne_eq, decide_eq_true_eq]
    intro hceq
    exact h (hceq ▸ hc)
  rw [List.append_assoc, takeWhile_append_all hnn, List.singleton_append,
    List.takeWhile_cons_of_neg (by simp [isNotSlash]), List.append_nil,
    List.reverse_reverse]

/-- A chunk as persisted in the Chroma store, with the metadata attached by
`process_pdfs` (the dynamic metadata bag of the source always carries all
four keys). -/
structure TaggedChunk where
  page_content : List Char
  source : List Char
  hash : List Char
  chunk_id : List Char
  uuid : List Char
deriving DecidableEq

/-- Lookup in a Python dict represented as its assignment history: the
last assignment to a key wins. -/
def dictGet (m : List (List Char × List Char)) (k : List Char) :
    Option (List Char) :=
  (m.reverse.find? (fun p => p.1 = k)).map (fun p => p.2)

/-- Embedding of `load_existing_metadata`: iterate over all stored chunk
metadata in store order and assign `existing[basename(source)] = hash`.
The resulting dict is represented by its assignment history, read through
`dictGet` (last assignment wins, exactly Python's dict semantics).  A
missing persistence directory corresponds to the empty store and yields
the empty table. -/
def load_existing_metadata (store : List TaggedChunk) :
    List (List Char × List Char) :=
  store.map (fun m => (basename m.source, m.hash))

/-- `filename.lower().endswith(".pdf")`. -/
def lowerPdfExt (name : List Char) : Bool :=
  List.isSuffixOf ".pdf".toList (name.map Char.toLower)

/-- Embedding of `get_new_pdfs`: scan the folder listing, skip names
without the pdf extension (case-insensitive), hash each remaining file,
and keep those whose name is absent from the table or whose stored hash
differs; results are the joined file paths, in listing order. -/
def get_new_pdfs (fs : List Char → List Nat) (pdf_folder : List Char)
    (listing : List (List Char))
    (existing_hashes : List (List Char × List Char)) : List (List Char) :=
  listing.filterMap (fun filename =>
    if lowerPdfExt filename then
      if dictGet existing_hashes filename = none ∨
          dictGet existing_hashes filename ≠
            some (get_file_hash fs (pjoin pdf_folder filename)) then
        some (pjoin pdf_folder filename)
      else none
    else none)

theorem mem_get_new_pdfs {fs : List Char → List Nat} {pdf_folder : List Char}
    {listing : List (List Char)} {K : List (List Char × List Char)}
    {p : List Char} :
    p ∈ get_new_pdfs fs pdf_folder listing K ↔
      ∃ name ∈ listing, p = pjoin pdf_folder name ∧ lowerPdfExt name = true ∧
        (dictGet K name = none ∨
          dictGet K name ≠ some (get_file_hash fs (pjoin pdf_folder name))) := by
  unfold get_new_pdfs
  rw [List.mem_filterMap]
  constructor
  · rintro ⟨name, hname, hf⟩
    by_cases hext : lowerPdfExt name = true
    · rw [if_pos hext] at hf
      by_cases hcond : dictGet K name = none ∨
          dictGet K name ≠ some (get_file_hash fs (pjoin pdf_folder name))
      · rw [if_pos hcond] at hf
        cases hf
        exact ⟨name, hname, rfl, hext, hcond⟩
      · rw [if_neg hcond] at hf
        cases hf
    · rw [if_neg hext] at hf
      cases hf
  · rintro ⟨name, hname, rfl, hext, hcond⟩
    exact ⟨name, hname, by rw [if_pos hext, if_pos hcond]⟩

/-- Claim C1: the set of paths returned by change detection is exactly the
files of the folder listing whose name has the pdf extension
(case-insensitive) and that are absent from the known-fingerprint table or
whose freshly computed fingerprint differs from the stored one; every
returned path comes from the listing, so table entries without a folder
file are never reported. -/
theorem claim_C1 (fs : List Char → List Nat) (pdf_folder : List Char)
    (listing : List (List Char)) (K : List (List Char × List Char))
    (p : List Char) :
    p ∈ get_new_pdfs fs pdf_folder listing K ↔
      ∃ name ∈ listing, p = pjoin pdf_folder name ∧ lowerPdfExt name = true ∧
        (dictGet K name = none ∨
          dictGet K name ≠ some (get_file_hash fs (pjoin pdf_folder name))) :=
  mem_get_new_pdfs

/-! ### Decimal formatting and chunk identifiers -/

/-- The decimal digit characters. -/
def digitChar (n : Nat) : Char := Char.ofNat (48 + n)

/-- Decimal digit string of a number (fuel-driven; `n + 1` steps always
suffice since the argument shrinks by division by ten). -/
def natDigitsF : Nat → Nat → List Char
  | 0, _ => []
  | fuel + 1, n =>
    if n < 10 then [digitChar n]
    else natDigitsF fuel (n / 10) ++ [digitChar (n % 10)]

/-- Decimal digit string of a number, as produced by Python's `d` format. -/
def natDigits (n : Nat) : List Char := natDigitsF (n + 1) n

/-- Python `f"{idx:03d}"`: the decimal digits left-padded with zeros to a
minimum width of three. -/
def format03 (n : Nat) : List Char :=
  List.replicate (3 - (natDigits n).length) '0' ++ natDigits n

/-- The `chunk_id` metadata value attached by `process_pdfs`:
`f"{os.path.basename(filepath)}_{idx:03d}"`. -/
def chunk_idOf (filepath : List Char) (idx : Nat) : List Char :=
  basename filepath ++ '_' :: format03 idx

theorem natDigitsF_fuel : ∀ (fuel1 : Nat) (fuel2 n : Nat), n < fuel1 → n < fuel2 →
    natDigitsF fuel1 n = natDigitsF fuel2 n := by
  intro fuel1
  induction fuel1 with
  | zero => intro fuel2 n h1 _; exact absurd h1 (Nat.not_lt_zero n)
  | succ f ih =>
    intro fuel2 n h1 h2
    cases fuel2 with
    | zero => exact absurd h2 (Nat.not_lt_zero n)
    | succ g =>
      by_cases h10 : n < 10
      · simp [natDigitsF, h10]
      · simp only [natDigitsF, h10, if_false]
        have hdiv : n / 10 < n := Nat.div_lt_self (by omega) (by omega)
        rw [ih g (n / 10) (by omega) (by omega)]

theorem natDigits_lt10 {n : Nat} (h : n < 10) : natDigits n = [digitChar n] := by
  simp [natDigits, natDigitsF, h]

theorem natDigits_ge10 {n : Nat} (h : 10 ≤ n) :
    natDigits n = natDigits (n / 10) ++ [digitChar (n % 10)] := by
  unfold natDigits
  have h1 : natDigitsF (n + 1) n =
      natDigitsF n (n / 10) ++ [digitChar (n % 10)] := by
    simp [natDigitsF, Nat.not_lt.mpr h]
  rw [h1]
  have hdiv : n / 10 < n := Nat.div_lt_self (by omega) (by omega)
  rw [natDigitsF_fuel n (n / 10 + 1) (n / 10) hdiv (Nat.lt_succ_self _)]

theorem format03_eq {n : Nat} (h : n < 1000) :
    format03 n = [digitChar (n / 100), digitChar (n / 10 % 10), digitChar (n % 10)] := by
  rcases Nat.lt_or_ge n 10 with h10 | h10
  · rw [format03, natDigits_lt10 h10]
    rw [show n / 100 = 0 from by omega, show n / 10 % 10 = 0 from by omega,
      show n % 10 = n from by omega]
    rfl
  · rcases Nat.lt_or_ge n 100 with h100 | h100
    · rw [format03, natDigits_ge10 h10, natDigits_lt10 (show n / 10 < 10 from by omega)]
      rw [show n / 100 = 0 from by omega, show n / 10 % 10 = n / 10 from by omega]
      rfl
    · rw [format03, natDigits_ge10 h10, natDigits_ge10 (show 10 ≤ n / 10 from by omega),
        natDigits_lt10 (show n / 10 / 10 < 10 from by omega)]
      rw [show n / 10 / 10 = n / 100 from by rw [Nat.div_div_eq_div_mul]]
      rfl

/-- Lexicographic strict comparison of character lists (the order in which
strings sort). -/
def lexLtB : List Char → List Char → Bool
  | [], [] => false
  | [], _ :: _ => true
  | _ :: _, [] => false
  | a :: x, b :: y => if a < b then true else if a = b then lexLtB x y else false

theorem lexLtB_append (a : List Char) :
    ∀ x y, lexLtB (a ++ x) (a ++ y) = lexLtB x y := by
  induction a with
  | nil => intro x y; rfl
  | cons c cs ih =>
    intro x y
    show (if c < c then true else if c = c then lexLtB (cs ++ x) (cs ++ y) else false) =
      lexLtB x y
    rw [if_neg (lt_irrefl c), if_pos rfl, ih]

theorem digitChar_mono : ∀ a, a < 10 → ∀ b, b < 10 → a < b →
    digitChar a < digitChar b := by decide

theorem digitChar_inj : ∀ a, a < 10 → ∀ b, b < 10 → a = b →
    digitChar a = digitChar b := fun _ _ _ _ h => h ▸ rfl

theorem lexLtB_digits3 {a1 a2 a3 b1 b2 b3 : Nat}
    (ha1 : a1 < 10) (ha2 : a2 < 10) (ha3 : a3 < 10)
    (hb1 : b1 < 10) (hb2 : b2 < 10) (hb3 : b3 < 10)
    (h : b1 < a1 ∨ (b1 = a1 ∧ (b2 < a2 ∨ (b2 = a2 ∧ b3 < a3)))) :
    lexLtB [digitChar b1, digitChar b2, digitChar b3]
      [digitChar a1, digitChar a2, digitChar a3] = true := by
  show (if digitChar b1 < digitChar a1 then true
    else if digitChar b1 = digitChar a1 then
      lexLtB [digitChar b2, digitChar b3] [digitChar a2, digitChar a3] else false) = true
  rcases h with h1 | ⟨h1, h2⟩
  · rw [if_pos (digitChar_mono b1 hb1 a1 ha1 h1)]
  · subst h1
    rw [if_neg (lt_irrefl _), if_pos rfl]
    show (if digitChar b2 < digitChar a2 then true
      else if digitChar b2 = digitChar a2 then
        lexLtB [digitChar b3] [digitChar a3] else false) = true
    rcases h2 with h2 | ⟨h2, h3⟩
    · rw [if_pos (digitChar_mono b2 hb2 a2 ha2 h2)]
    · subst h2
      rw [if_neg (lt_irrefl _), if_pos rfl]
      show (if digitChar b3 < digitChar a3 then true
        else if digitChar b3 = digitChar a3 then lexLtB [] [] else false) = true
      rw [if_pos (digitChar_mono b3 hb3 a3 ha3 h3)]

theorem format03_mono {i j : Nat} (hij : i < j) (hj : j < 1000) :
    lexLtB (format03 i) (format03 j) = true := by
  rw [format03_eq (show i < 1000 from by omega), format03_eq hj]
  apply lexLtB_digits3 (by omega) (by omega) (by omega) (by omega) (by omega) (by omega)
  omega

theorem chunk_idOf_mono {filepath : List Char} {i j : Nat} (hij : i < j)
    (hj : j < 1000) : lexLtB (chunk_idOf filepath i) (chunk_idOf filepath j) = true := by
  unfold chunk_idOf
  have h : ∀ n, basename filepath ++ '_' :: format03 n =
      (basename filepath ++ ['_']) ++ format03 n := by
    intro n
    rw [List.append_assoc, List.singleton_append]
  rw [h i, h j, lexLtB_append]
  exact format03_mono hij hj

/-! ### The processing pipeline

`process_pdfs` and `update_rag` of `ollama_rag_creation_updation.py`.
External collaborators are a parameter record: the filesystem, the PDF
extraction collaborator (`PyPDFLoader(filepath).load()`, modelled as a
fallible function of the file's bytes returning the page texts), the text
splitter (`RecursiveCharacterTextSplitter.split_documents`, a
deterministic function of the cleaned page texts), the embed-and-store
collaborator (`Chroma.add_documents` followed by `persist`, one fallible
atomic batch per call as in the source), the uuid generator, and the
`cfg.CLEAN_REFERENCES` flag. -/

/-- The error taxonomy of the run: extraction failures and
embedding/store failures, which in the source are uncaught Python
exceptions. -/
inductive PipelineError where
  | extractionError
  | embeddingError
  | storeError
deriving DecidableEq

/-- The external collaborators consumed by the pipeline. -/
structure Collaborators where
  fs : List Char → List Nat
  extract : List Nat → Except PipelineError (List (List Char))
  splitter : List (List Char) → List (List Char)
  addDocs : List TaggedChunk → List TaggedChunk →
    Except PipelineError (List TaggedChunk)
  uuidOf : List Char → Nat → List Char
  cleanRefs : Bool

/-- The metadata-tagging loop of `process_pdfs`: enumerate the chunks of
one file and attach source path, file hash, `chunk_id` (basename plus
zero-padded ordinal) and a uuid. -/
def tagChunks (env : Collaborators) (filepath file_hash : List Char)
    (chunks : List (List Char)) : List TaggedChunk :=
  chunks.enum.map (fun p =>
    { page_content := p.2, source := filepath, hash := file_hash,
      chunk_id := chunk_idOf filepath p.1, uuid := env.uuidOf filepath p.1 })

/-- The page-cleaning step of the `process_pdfs` loop: clean and
normalize a page's text, optionally removing the references section. -/
def cleanPage (env : Collaborators) (p : List Char) : List Char :=
  let q := normalize_text (clean_text p)
  if env.cleanRefs then remove_references q else q

/-- The per-file body of the `process_pdfs` loop: load the pages, clean
and normalize each page (optionally removing references), split into
chunks, hash the file and tag the chunks. -/
def processOneFile (env : Collaborators) (filepath : List Char) :
    Except PipelineError (List TaggedChunk) := do
  let content := env.fs filepath
  let pages ← env.extract content
  let cleaned := pages.map (cleanPage env)
  let chunks := env.splitter cleaned
  let file_hash := get_file_hash env.fs filepath
  pure (tagChunks env filepath file_hash chunks)

/-- Accumulation of `all_docs` over the work list (the loop of
`process_pdfs` before the single batch merge). -/
def buildBatch (env : Collaborators) (pdf_files : List (List Char)) :
    Except PipelineError (List TaggedChunk) :=
  pdf_files.foldlM (fun acc fp => do
    let docs ← processOneFile env fp
    pure (acc ++ docs)) []

/-- Embedding of `process_pdfs`: return immediately on an empty work list
(nothing is written), otherwise process every file into one batch and
submit the batch to the store in a single `add_documents` call, returning
the new store contents and the number of merged chunks.  Any uncaught
collaborator error aborts the whole run with no store update. -/
def process_pdfs (env : Collaborators) (pdf_files : List (List Char))
    (store : List TaggedChunk) :
    Except PipelineError (List TaggedChunk × Nat) :=
  if pdf_files = [] then Except.ok (store, 0)
  else do
    let all_docs ← buildBatch env pdf_files
    let store2 ← env.addDocs store all_docs
    pure (store2, all_docs.length)

/-- Embedding of `update_rag`: load the fingerprint table from the store,
detect new or changed pdf files, and process them. -/
def update_rag (env : Collaborators) (pdf_folder : List Char)
    (listing : List (List Char)) (store : List TaggedChunk) :
    Except PipelineError (List TaggedChunk × Nat) :=
  let existing := load_existing_metadata store
  let new_pdfs := get_new_pdfs env.fs pdf_folder listing existing
  process_pdfs env new_pdfs store

theorem map_fst_zip {α β γ : Type} (f : α → γ) :
    ∀ (x : List α) (y : List β), x.length = y.length →
      (x.zip y).map (fun p => f p.1) = x.map f := by
  intro x
  induction x with
  | nil => intro y _; rfl
  | cons a xs ih =>
    intro y h
    cases y with
    | nil => simp at h
    | cons b ys =>
      simp only [List.zip_cons_cons, List.map_cons]
      rw [ih ys (by simpa using h)]

/-- Claim C8: the tagging step assigns zero-based ordinals in document
order — the chunk ids of a file's tagged chunks are exactly
`chunk_idOf filepath 0 .. chunk_idOf filepath (N-1)` in order — and for
N up to 1000 these ids sort lexicographically in document order (the
ordinal is zero-padded to width three). -/
theorem claim_C8 (env : Collaborators) (filepath file_hash : List Char)
    (chunks : List (List Char)) :
    ((tagChunks env filepath file_hash chunks).map (fun tc => tc.chunk_id) =
      (List.range chunks.length).map (chunk_idOf filepath)) ∧
    (chunks.length ≤ 1000 → ∀ i j, i < j → j < chunks.length →
      lexLtB (chunk_idOf filepath i) (chunk_idOf filepath j) = true) := by
  constructor
  · unfold tagChunks
    rw [List.map_map, List.enum_eq_zip_range]
    have h := map_fst_zip (chunk_idOf filepath) (List.range chunks.length) chunks
      (by rw [List.length_range])
    calc ((List.range chunks.length).zip chunks).map
          ((fun tc : TaggedChunk => tc.chunk_id) ∘ (fun p =>
            { page_content := p.2, source := filepath, hash := file_hash,
              chunk_id := chunk_idOf filepath p.1,
              uuid := env.uuidOf filepath p.1 : TaggedChunk})) =
        ((List.range chunks.length).zip chunks).map (fun p => chunk_idOf filepath p.1) := rfl
      _ = (List.range chunks.length).map (chunk_idOf filepath) := h
  · intro h1000 i j hij hj
    exact chunk_idOf_mono hij (Nat.lt_of_lt_of_le hj h1000)

/-- Witness for C8: with two chunks the first chunk id sorts strictly
before the second. -/
theorem claim_C8_witness :
    lexLtB (chunk_idOf "d/x.pdf".toList 0) (chunk_idOf "d/x.pdf".toList 1) = true :=
  (claim_C8
    { fs := fun _ => [], extract := fun _ => Except.ok [],
      splitter := fun pages => pages, addDocs := fun s d => Except.ok (s ++ d),
      uuidOf := fun _ _ => [], cleanRefs := false }
    "d/x.pdf".toList [] [['a'], ['b']]).2 (by decide) 0 1 (by decide) (by decide)

/-! ### Claims C3 and C4: error behaviour of the run -/

theorem processOneFile_error {env : Collaborators} {fp : List Char} {e : PipelineError}
    (h : env.extract (env.fs fp) = Except.error e) :
    processOneFile env fp = Except.error e := by
  unfold processOneFile
  dsimp only
  rw [h]
  rfl

theorem buildBatchAux_error {env : Collaborators} {fp : List Char} {e : PipelineError}
    (hfail : env.extract (env.fs fp) = Except.error e) :
    ∀ (files : List (List Char)), fp ∈ files → ∀ (acc : List TaggedChunk),
      ∃ e2, files.foldlM (fun acc fp => do
        let docs ← processOneFile env fp
        pure (acc ++ docs)) acc = Except.error e2 := by
  intro files
  induction files with
  | nil => intro h; cases h
  | cons f rest ih =>
    intro hmem acc
    cases hpf : processOneFile env f with
    | error e1 =>
      refine ⟨e1, ?_⟩
      show ((processOneFile env f >>= fun docs => pure (acc ++ docs)) >>= _) = _
      rw [hpf]
      rfl
    | ok docs =>
      rcases List.mem_cons.mp hmem with rfl | hmem2
      · rw [processOneFile_error hfail] at hpf
        cases hpf
      · obtain ⟨e2, h2⟩ := ih hmem2 (acc ++ docs)
        refine ⟨e2, ?_⟩
        show ((processOneFile env f >>= fun docs => pure (acc ++ docs)) >>= _) = _
        rw [hpf]
        exact h2

/-- A concrete collaborator environment in which extraction fails on the
contents of `d/bad.pdf` and succeeds on every other file. -/
def envC3 : Collaborators where
  fs := fun p => if p = "d/bad.pdf".toList then [0] else [1]
  extract := fun content =>
    if content = [0] then Except.error PipelineError.extractionError
    else Except.ok [['h', 'i']]
  splitter := fun pages => pages
  addDocs := fun s d => Except.ok (s ++ d)
  uuidOf := fun _ _ => []
  cleanRefs := false

/-- Counterexample to claim C3: with a work list containing a file whose
extraction fails followed by a processable file, the whole run aborts
with the extraction error — the failing file is not skipped and the
remaining file is never processed — although the remaining file on its
own would be processed successfully (`process_pdfs` has no per-file
exception handling). -/
theorem claim_C3_counterexample :
    process_pdfs envC3 ["d/bad.pdf".toList, "d/good.pdf".toList] [] =
      Except.error PipelineError.extractionError ∧
    ∃ st n, process_pdfs envC3 ["d/good.pdf".toList] [] = Except.ok (st, n) :=
  ⟨rfl, ⟨_, _, rfl⟩⟩

/-- Claim C3 as amended: an extraction failure on any file of the work
list aborts the entire run — the error propagates out of `process_pdfs`,
no batch is merged and nothing is persisted (so the unchanged fingerprint
table makes the next run retry all these files). -/
theorem claim_C3_amended (env : Collaborators) (pdf_files : List (List Char))
    (store : List TaggedChunk) (fp : List Char) (e : PipelineError)
    (hmem : fp ∈ pdf_files)
    (hfail : env.extract (env.fs fp) = Except.error e) :
    ∃ e2, process_pdfs env pdf_files store = Except.error e2 := by
  obtain ⟨e2, h2⟩ := buildBatchAux_error hfail pdf_files hmem []
  refine ⟨e2, ?_⟩
  unfold process_pdfs
  rw [if_neg (by rintro rfl; cases hmem)]
  show (buildBatch env pdf_files >>= _) = _
  unfold buildBatch
  rw [h2]
  rfl

/-- Witness for the amended C3 at the concrete environment of the
counterexample. -/
theorem claim_C3_witness :
    ∃ e2, process_pdfs envC3 ["d/bad.pdf".toList, "d/good.pdf".toList] [] =
      Except.error e2 :=
  claim_C3_amended envC3 _ [] "d/bad.pdf".toList PipelineError.extractionError
    (List.mem_cons_self _ _) rfl

/-- Claim C4: if the embed-and-store collaborator fails on the run's
batch, the whole run aborts with that error and returns no new store —
the fingerprint table is only ever persisted as chunk metadata through
the single batch call, so the persisted table and index stay exactly as
they were before the run and the next run's detection sees the unchanged
table and retries the same files. -/
theorem claim_C4 (env : Collaborators) (pdf_files : List (List Char))
    (store batch : List TaggedChunk) (e : PipelineError)
    (hne : pdf_files ≠ [])
    (hbatch : buildBatch env pdf_files = Except.ok batch)
    (hfail : env.addDocs store batch = Except.error e) :
    process_pdfs env pdf_files store = Except.error e ∧
      ∀ result, process_pdfs env pdf_files store ≠ Except.ok result := by
  have h : process_pdfs env pdf_files store = Except.error e := by
    unfold process_pdfs
    rw [if_neg hne]
    show (buildBatch env pdf_files >>= _) = _
    rw [hbatch]
    show (env.addDocs store batch >>= _) = _
    rw [hfail]
    rfl
  exact ⟨h, fun result hr => by rw [h] at hr; cases hr⟩

/-- A concrete collaborator environment in which the embed-and-store step
always fails. -/
def envC4 : Collaborators where
  fs := fun _ => [1]
  extract := fun _ => Except.ok [['h', 'i']]
  splitter := fun pages => pages
  addDocs := fun _ _ => Except.error PipelineError.embeddingError
  uuidOf := fun _ _ => []
  cleanRefs := false

/-- Witness for C4 at a concrete run whose merge fails. -/
theorem claim_C4_witness :
    process_pdfs envC4 ["d/a.pdf".toList] [] =
      Except.error PipelineError.embeddingError :=
  (claim_C4 envC4 ["d/a.pdf".toList] [] _ PipelineError.embeddingError
    (by simp) rfl rfl).1

/-! ### Claim C2: no-op stability of a second run -/

theorem processOneFile_ok_shape {env : Collaborators} {fp : List Char}
    {docs : List TaggedChunk} (h : processOneFile env fp = Except.ok docs) :
    ∀ tc ∈ docs, tc.source = fp ∧ tc.hash = get_file_hash env.fs fp := by
  unfold processOneFile at h
  dsimp only at h
  cases hex : env.extract (env.fs fp) with
  | error e =>
    rw [hex] at h
    have h2 : (Except.error e : Except PipelineError (List TaggedChunk)) =
        Except.ok docs := h
    cases h2
  | ok pages =>
    rw [hex] at h
    have h2 : Except.ok (ε := PipelineError)
        (tagChunks env fp (get_file_hash env.fs fp)
          (env.splitter (pages.map (cleanPage env)))) = Except.ok docs := h
    have h3 := Except.ok.inj h2
    intro tc htc
    rw [← h3] at htc
    unfold tagChunks at htc
    rw [List.mem_map] at htc
    obtain ⟨p, -, hp⟩ := htc
    rw [← hp]
    exact ⟨rfl, rfl⟩

theorem buildBatchAux_ok {env : Collaborators} :
    ∀ (files : List (List Char)) (acc batch : List TaggedChunk),
      List.foldlM (fun acc fp => do
        let docs ← processOneFile env fp
        pure (acc ++ docs)) acc files = Except.ok batch →
      ∃ ext, batch = acc ++ ext ∧
        (∀ tc ∈ ext, ∃ fp ∈ files, ∃ docs,
          processOneFile env fp = Except.ok docs ∧ tc ∈ docs) ∧
        (∀ fp ∈ files, ∃ docs, processOneFile env fp = Except.ok docs ∧
          ∀ tc ∈ docs, tc ∈ ext) := by
  intro files
  induction files with
  | nil =>
    intro acc batch h
    have h2 : acc = batch := Except.ok.inj h
    refine ⟨[], by rw [← h2, List.append_nil], ?_, ?_⟩
    · intro tc htc
      exact absurd htc (List.not_mem_nil tc)
    · intro fp hfp
      exact absurd hfp (List.not_mem_nil fp)
  | cons f rest ih =>
    intro acc batch h
    simp only [List.foldlM_cons] at h
    cases hpf : processOneFile env f with
    | error e =>
      rw [hpf] at h
      have h2 : (Except.error e : Except PipelineError (List TaggedChunk)) =
          Except.ok batch := h
      cases h2
    | ok docs =>
      rw [hpf] at h
      have h2 : List.foldlM (fun acc fp => do
          let docs ← processOneFile env fp
          pure (acc ++ docs)) (acc ++ docs) rest = Except.ok batch := h
      obtain ⟨ext, hext, hmem, hcover⟩ := ih (acc ++ docs) batch h2
      refine ⟨docs ++ ext, by rw [hext, List.append_assoc], ?_, ?_⟩
      · intro tc htc
        rcases List.mem_append.mp htc with htc | htc
        · exact ⟨f, List.mem_cons_self .., docs, hpf, htc⟩
        · obtain ⟨fp, hfp, d2, hd2, htc2⟩ := hmem tc htc
          exact ⟨fp, List.mem_cons_of_mem _ hfp, d2, hd2, htc2⟩
      · intro fp hfp
        rcases List.mem_cons.mp hfp with rfl | hfp2
        · exact ⟨docs, hpf, fun tc htc => List.mem_append.mpr (Or.inl htc)⟩
        · obtain ⟨d2, hd2, hsub⟩ := hcover fp hfp2
          exact ⟨d2, hd2, fun tc htc => List.mem_append.mpr (Or.inr (hsub tc htc))⟩

theorem option_map_or {α β : Type} (f : α → β) (x y : Option α) :
    (x.or y).map f = (x.map f).or (y.map f) := by
  cases x <;> rfl

theorem dictGet_load_append (s b : List TaggedChunk) (k : List Char) :
    dictGet (load_existing_metadata (s ++ b)) k =
      (dictGet (load_existing_metadata b) k).or
        (dictGet (load_existing_metadata s) k) := by
  unfold dictGet load_existing_metadata
  rw [List.map_append, List.reverse_append, List.find?_append, option_map_or]

theorem dictGet_uniform {m : List (List Char × List Char)} {k v : List Char}
    (hex : ∃ p ∈ m, p.1 = k) (huni : ∀ p ∈ m, p.1 = k → p.2 = v) :
    dictGet m k = some v := by
  unfold dictGet
  cases hf : m.reverse.find? (fun p => p.1 = k) with
  | none =>
    exfalso
    obtain ⟨p, hp, hpk⟩ := hex
    have := List.find?_eq_none.mp hf p (List.mem_reverse.mpr hp)
    simp [hpk] at this
  | some p =>
    have hps := List.find?_some hf
    simp only [decide_eq_true_eq] at hps
    have hpm : p ∈ m := List.mem_reverse.mp (List.mem_of_find?_eq_some hf)
    exact congrArg some (huni p hpm hps)

theorem dictGet_nokey {m : List (List Char × List Char)} {k : List Char}
    (h : ∀ p ∈ m, p.1 ≠ k) : dictGet m k = none := by
  unfold dictGet
  have hnone : m.reverse.find? (fun p => p.1 = k) = none :=
    List.find?_eq_none.mpr (fun x hx => by
      simp only [decide_eq_true_eq]
      exact h x (List.mem_reverse.mp hx))
  rw [hnone]
  rfl

theorem get_new_pdfs_nil {fs : List Char → List Nat} {folder : List Char}
    {listing : List (List Char)} {K : List (List Char × List Char)}
    (h : ∀ n ∈ listing, lowerPdfExt n = true →
      dictGet K n = some (get_file_hash fs (pjoin folder n))) :
    get_new_pdfs fs folder listing K = [] := by
  unfold get_new_pdfs
  rw [List.filterMap_eq_nil_iff]
  intro n hn
  by_cases hext : lowerPdfExt n = true
  · have hcond : ¬(dictGet K n = none ∨
        dictGet K n ≠ some (get_file_hash fs (pjoin folder n))) := by
      rw [h n hn hext]
      simp
    rw [if_pos hext, if_neg hcond]
  · rw [if_neg hext]

/-- After a successful run, the persisted table maps every pdf name of
the folder listing to the file's current fingerprint: changed files were
reprocessed and their chunks (appended last, hence winning the dict
assignment) carry the fresh hash, while unchanged files keep their
already-correct entry. -/
theorem table_after_run {env : Collaborators} {pdf_folder : List Char}
    {listing : List (List Char)} {store store1 : List TaggedChunk} {n1 : Nat}
    (hslash : ∀ n ∈ listing, '/' ∉ n)
    (hadd : ∀ s d, env.addDocs s d = Except.ok (s ++ d))
    (hnec : ∀ n ∈ listing, ∀ docs,
      processOneFile env (pjoin pdf_folder n) = Except.ok docs → docs ≠ [])
    (h1 : update_rag env pdf_folder listing store = Except.ok (store1, n1)) :
    ∀ n ∈ listing, lowerPdfExt n = true →
      dictGet (load_existing_metadata store1) n =
        some (get_file_hash env.fs (pjoin pdf_folder n)) := by
  unfold update_rag at h1
  dsimp only at h1
  obtain ⟨ext, hstore1, hmemext, hcover⟩ :
      ∃ ext, store1 = store ++ ext ∧
        (∀ tc ∈ ext, ∃ fp ∈ get_new_pdfs env.fs pdf_folder listing
            (load_existing_metadata store), ∃ docs,
          processOneFile env fp = Except.ok docs ∧ tc ∈ docs) ∧
        (∀ fp ∈ get_new_pdfs env.fs pdf_folder listing
            (load_existing_metadata store), ∃ docs,
          processOneFile env fp = Except.ok docs ∧ ∀ tc ∈ docs, tc ∈ ext) := by
    by_cases hw : get_new_pdfs env.fs pdf_folder listing
        (load_existing_metadata store) = []
    · rw [hw] at h1
      have h2 : (Except.ok (store, 0) : Except PipelineError (List TaggedChunk × Nat)) =
          Except.ok (store1, n1) := h1
      have h3 := Except.ok.inj h2
      have h4 : store = store1 := congrArg Prod.fst h3
      refine ⟨[], by rw [← h4, List.append_nil], ?_, ?_⟩
      · intro tc htc
        exact absurd htc (List.not_mem_nil tc)
      · intro fp hfp
        rw [hw] at hfp
        exact absurd hfp (List.not_mem_nil fp)
    · unfold process_pdfs at h1
      rw [if_neg hw] at h1
      cases hbb : buildBatch env (get_new_pdfs env.fs pdf_folder listing
          (load_existing_metadata store)) with
      | error e =>
        rw [hbb] at h1
        have h2 : (Except.error e : Except PipelineError (List TaggedChunk × Nat)) =
            Except.ok (store1, n1) := h1
        cases h2
      | ok batch =>
        rw [hbb] at h1
        have h2 : (env.addDocs store batch >>= fun store2 =>
            pure (store2, batch.length)) = Except.ok (store1, n1) := h1
        rw [hadd store batch] at h2
        have h3 : (Except.ok (store ++ batch, batch.length) :
            Except PipelineError (List TaggedChunk × Nat)) = Except.ok (store1, n1) := h2
        have h4 := Except.ok.inj h3
        have h5 : store ++ batch = store1 := congrArg Prod.fst h4
        unfold buildBatch at hbb
        obtain ⟨ext, hext0, hmem, hcover⟩ := buildBatchAux_ok _ [] batch hbb
        rw [List.nil_append] at hext0
        refine ⟨ext, ?_, hmem, hcover⟩
        rw [← h5, hext0]
  intro n hn hext
  rw [hstore1, dictGet_load_append]
  by_cases hdet : pjoin pdf_folder n ∈ get_new_pdfs env.fs pdf_folder listing
      (load_existing_metadata store)
  · -- the file was reprocessed: its fresh chunks fix the table entry
    have huni : ∀ p ∈ load_existing_metadata ext, p.1 = n →
        p.2 = get_file_hash env.fs (pjoin pdf_folder n) := by
      intro p hp hpk
      unfold load_existing_metadata at hp
      rw [List.mem_map] at hp
      obtain ⟨tc, htc, hptc⟩ := hp
      obtain ⟨fp, hfp, docs, hdocs, htcd⟩ := hmemext tc htc
      obtain ⟨m, hm, rfl, -, -⟩ := mem_get_new_pdfs.mp hfp
      have hshape := processOneFile_ok_shape hdocs tc htcd
      rw [← hptc] at hpk ⊢
      have hbn : basename tc.source = m := by
        rw [hshape.1, basename_pjoin (hslash m hm)]
      rw [hbn] at hpk
      subst hpk
      exact hshape.2
    have hexi : ∃ p ∈ load_existing_metadata ext, p.1 = n := by
      obtain ⟨docs, hdocs, hsub⟩ := hcover (pjoin pdf_folder n) hdet
      obtain ⟨tc0, htc0⟩ : ∃ tc0, tc0 ∈ docs := by
        cases hd : docs with
        | nil => exact absurd hd (hnec n hn docs hdocs)
        | cons t ts => exact ⟨t, List.mem_cons_self ..⟩
      have hshape := processOneFile_ok_shape hdocs tc0 htc0
      refine ⟨(basename tc0.source, tc0.hash), ?_, ?_⟩
      · unfold load_existing_metadata
        rw [List.mem_map]
        exact ⟨tc0, hsub tc0 htc0, rfl⟩
      · rw [hshape.1, basename_pjoin (hslash n hn)]
    rw [dictGet_uniform hexi huni]
    rfl
  · -- the file was unchanged: its table entry was already correct
    have hcond : dictGet (load_existing_metadata store) n =
        some (get_file_hash env.fs (pjoin pdf_folder n)) := by
      by_contra hc
      apply hdet
      rw [mem_get_new_pdfs]
      exact ⟨n, hn, rfl, hext, Or.inr hc⟩
    have hnok : ∀ p ∈ load_existing_metadata ext, p.1 ≠ n := by
      intro p hp hpk
      unfold load_existing_metadata at hp
      rw [List.mem_map] at hp
      obtain ⟨tc, htc, hptc⟩ := hp
      obtain ⟨fp, hfp, docs, hdocs, htcd⟩ := hmemext tc htc
      obtain ⟨m, hm, rfl, -, -⟩ := mem_get_new_pdfs.mp hfp
      have hshape := processOneFile_ok_shape hdocs tc htcd
      rw [← hptc] at hpk
      have hbn : basename tc.source = m := by
        rw [hshape.1, basename_pjoin (hslash m hm)]
      rw [hbn] at hpk
      subst hpk
      exact hdet hfp
    rw [dictGet_nokey hnok]
    exact hcond

/-- Claim C2: no-op stability.  If a run of `update_rag` succeeds, then a
second run over the same folder with unchanged file contents detects
nothing: the fingerprints persisted as chunk metadata during the first
run are recovered by `load_existing_metadata` (keyed by the basename of
the stored source path), change detection produces an empty work list,
and `process_pdfs` returns immediately with the store untouched and zero
merged chunks.  Hypotheses: listing names contain no separator (as
returned by `os.listdir`), the store collaborator appends batches, and
every successfully processed file yields at least one chunk (so its
fingerprint is actually persisted). -/
theorem claim_C2 (env : Collaborators) (pdf_folder : List Char)
    (listing : List (List Char)) (store : List TaggedChunk)
    (hslash : ∀ n ∈ listing, '/' ∉ n)
    (hadd : ∀ s d, env.addDocs s d = Except.ok (s ++ d))
    (hnec : ∀ n ∈ listing, ∀ docs,
      processOneFile env (pjoin pdf_folder n) = Except.ok docs → docs ≠ [])
    (store1 : List TaggedChunk) (n1 : Nat)
    (h1 : update_rag env pdf_folder listing store = Except.ok (store1, n1)) :
    update_rag env pdf_folder listing store1 = Except.ok (store1, 0) := by
  have htab := table_after_run hslash hadd hnec h1
  unfold update_rag
  dsimp only
  rw [get_new_pdfs_nil htab]
  rfl

/-- A concrete healthy collaborator environment for the C2 witness. -/
def envC2 : Collaborators where
  fs := fun _ => [7]
  extract := fun _ => Except.ok [['h', 'i']]
  splitter := fun pages => pages
  addDocs := fun s d => Except.ok (s ++ d)
  uuidOf := fun _ _ => []
  cleanRefs := false

/-- The store contents after the first concrete run of the C2 witness. -/
def storeC2 : List TaggedChunk :=
  [⟨"hi".toList, pjoin "d".toList "a.pdf".toList,
    get_file_hash envC2.fs (pjoin "d".toList "a.pdf".toList),
    chunk_idOf (pjoin "d".toList "a.pdf".toList) 0, []⟩]

/-- Witness for C2: a concrete first run produces one chunk, and the
second run over the unchanged folder merges zero chunks and leaves the
store untouched. -/
theorem claim_C2_witness :
    update_rag envC2 "d".toList ["a.pdf".toList] storeC2 =
      Except.ok (storeC2, 0) :=
  claim_C2 envC2 "d".toList ["a.pdf".toList] []
    (by decide)
    (fun s d => rfl)
    (by
      intro n hn docs h
      simp only [List.mem_singleton] at hn
      subst hn
      intro hdocs
      subst hdocs
      have hval : processOneFile envC2 (pjoin "d".toList "a.pdf".toList) =
          Except.ok storeC2 := rfl
      have h2 := hval.symm.trans h
      have h3 := Except.ok.inj h2
      cases h3)
    storeC2 1 rfl

example : clean_text "a\n5\nb".toList = "a b".toList := by decide
example : clean_text "!page page 5 6!".toList = "!page 6!".toList := by decide
example : clean_text "Title\n\nPage 3\n\nBody one. Body two.".toList =
    "Title Body one. Body two.".toList := by decide
example : remove_references "abc\nReferences\n[1] foo".toList = "abc\n".toList := by decide
example : remove_references "no refs here".toList = "no refs here".toList := by decide
example : normalize_text "ﬁx “q” d’s".toList = "fix \"q\" d's".toList := by decide
example : clean_text "5".toList = "".toList := by decide
example : clean_text "1 2\n".toList = "1 2".toList := by decide

end RagSpec
